import Mathlib

/-!
# HMLotteryBox: a weighted lottery pool

A shallow embedding of `src/HMLotteryBox.h` (`template <typename T1> class CHMLotteryBox`).

* The item type `T1` is a type `α` with decidable equality (`operator==`).
* `int` values are exact integers (`Int`); the constant `INT_MAX` is `2^31 - 1`.
* The two data members become the two fields of the structure `CHMLotteryBox`.
* A member function that mutates the box takes the box and returns the new box.
* A `bool`-returning function with an out-parameter returns an `Option`:
  `none` for `false`, `some x` for `true` with `x` written to the out-parameter.
* A pointer argument is an `Option`: `none` is `NULL`, `some xs` points to the storage `xs`.
* `ModifyLotteryPool`, `Modify`, `ModifyContainer` and `runCalls` are the members on the
  runs in which `std::list::push_back` does not throw. `ModifyLotteryPoolAlloc`,
  `Modify.bodyAlloc`, `ModifyAlloc`, `ModifyContainerAlloc` and `runCallsAlloc` are the
  members with the `try`/`catch` of the source, where a flag says whether a call of
  `push_back` throws.
* The members are given a second time with 32-bit `int` arithmetic (`ModifyLotteryPool32`,
  `FindLotteryByRandKey32`, `Draw32`, `Modify32`, `ModifyContainer32`), to compare the
  machine arithmetic with the exact one.
-/

namespace HMLotteryBox

/-- The constant `INT_MAX` of a 32-bit `int`. -/
def INT_MAX : Int := 2147483647

/-- The data members of `CHMLotteryBox<T1>`: the cached total and the list of
(lottery, count) pairs. -/
structure CHMLotteryBox (α : Type) where
  m_nCurrentLotteryCount : Int
  m_listLotteryPool : List (α × Int)
  deriving DecidableEq

/-- The static member `m_scnLotteryBoxCapacity = INT_MAX`. -/
def m_scnLotteryBoxCapacity : Int := INT_MAX

set_option linter.unusedSectionVars false

variable {α : Type} [DecidableEq α]

/-- The constructor: the total is 0 and the list is cleared. -/
def CHMLotteryBox.new : CHMLotteryBox α :=
  { m_nCurrentLotteryCount := 0, m_listLotteryPool := [] }

/-- The private member `ModifyLotteryPool(t1Lottery, nCount)` on the list
`m_listLotteryPool`: `none` when it returns `false` (the list is then untouched),
`some l` when it returns `true` leaving the list `l`.

The recursion walks the list as the `for` loop does; the empty list is the place
where the loop has ended without a match and the code after the loop runs.

This is the member on the runs in which `push_back` does not throw; the member with the
`catch` path of a throwing `push_back` is `ModifyLotteryPoolAlloc`. -/
def ModifyLotteryPool (t1Lottery : α) (nCount : Int) :
    List (α × Int) → Option (List (α × Int))
  | [] =>
    if 0 > nCount then none
    else if 0 < nCount then some [(t1Lottery, nCount)]
    else some []
  | it :: rest =>
    if t1Lottery = it.1 then
      if 0 > it.2 + nCount then none
      else if 0 = it.2 + nCount then some rest
      else some ((it.1, it.2 + nCount) :: rest)
    else
      (ModifyLotteryPool t1Lottery nCount rest).map (fun l => it :: l)

/-- The loop of `FindLotteryByRandKey`, entered with the current value of `nTop`. -/
def FindLotteryByRandKey.loop (nRandKey : Int) : List (α × Int) → Int → Option α
  | [], _ => none
  | it :: rest, nTop =>
    let nBotton := nTop
    let nTop := nTop + it.2
    if nRandKey ≥ nBotton ∧ nRandKey < nTop then some it.1
    else FindLotteryByRandKey.loop nRandKey rest nTop

/-- The private member `FindLotteryByRandKey(t1Lottery, nRandKey)`: `some x` when it
returns `true` having written `x`, `none` when it returns `false`. -/
def FindLotteryByRandKey (pool : List (α × Int)) (nRandKey : Int) : Option α :=
  FindLotteryByRandKey.loop nRandKey pool 0

/-- The local `nKeyNum` of `Draw`: `((-1 == nRand) ? rand() : nRand) % m_nCurrentLotteryCount`,
where `rnd` is the value returned by `rand()` and `%` is the truncated remainder of C++. -/
def Draw.nKeyNum (box : CHMLotteryBox α) (nRand : Int) (rnd : Int) : Int :=
  Int.tmod (if -1 = nRand then rnd else nRand) box.m_nCurrentLotteryCount

/-- The member `Draw(t1Lottery, nRand)`. The argument `rnd` is the value that the call of
`rand()` returns when it is made. The result is the drawn lottery (`none` when `Draw`
returns `false`) and the box after the call. -/
def Draw (box : CHMLotteryBox α) (nRand : Int) (rnd : Int) : Option α × CHMLotteryBox α :=
  if 0 ≥ box.m_nCurrentLotteryCount then (none, box)
  else if nRand < 0 ∧ -1 ≠ nRand then (none, box)
  else
    match FindLotteryByRandKey box.m_listLotteryPool (Draw.nKeyNum box nRand rnd) with
    | none => (none, box)
    | some t1Lottery =>
      match ModifyLotteryPool t1Lottery (-1) box.m_listLotteryPool with
      | none => (none, box)
      | some l =>
        (some t1Lottery,
          { m_nCurrentLotteryCount := box.m_nCurrentLotteryCount - 1, m_listLotteryPool := l })

/-- One iteration of the loop of `Modify` (both variants have the same body), for the
lottery `t1Lottery` and the count `nCount` read in this iteration. -/
def Modify.body (box : CHMLotteryBox α) (t1Lottery : α) (nCount : Int) : CHMLotteryBox α :=
  if 0 = nCount ∨ m_scnLotteryBoxCapacity - box.m_nCurrentLotteryCount < nCount then box
  else
    match ModifyLotteryPool t1Lottery nCount box.m_listLotteryPool with
    | none => box
    | some l =>
      { m_nCurrentLotteryCount := box.m_nCurrentLotteryCount + nCount, m_listLotteryPool := l }

/-- The member `Modify(pLottery, pCount, nLen)` on two parallel arrays. The index `i` runs
over `0, ..., nLen - 1`; a read past the end of the storage (undefined in C++) leaves the
box as it is in that iteration. -/
def Modify (box : CHMLotteryBox α) (pLottery : Option (List α)) (pCount : Option (List Int))
    (nLen : Int) : CHMLotteryBox α :=
  match pLottery, pCount with
  | some lottery, some count =>
    if 0 ≥ nLen then box
    else
      (List.range nLen.toNat).foldl
        (fun b i =>
          match lottery[i]?, count[i]? with
          | some x, some c => Modify.body b x c
          | _, _ => b)
        box
  | _, _ => box

/-- The member template `Modify(t2Lottery)`: `t2Lottery` is given by the pairs
(`it->first`, `it->second`) in iteration order from `cbegin()` to `cend()`. -/
def ModifyContainer (box : CHMLotteryBox α) (t2Lottery : List (α × Int)) : CHMLotteryBox α :=
  t2Lottery.foldl (fun b it => Modify.body b it.1 it.2) box

/-- The member `Clear()`. -/
def Clear (_box : CHMLotteryBox α) : CHMLotteryBox α :=
  { m_nCurrentLotteryCount := 0, m_listLotteryPool := [] }

/-- The loop of `GetCount` over the list. -/
def GetCount.loop (t1Lottery : α) : List (α × Int) → Int
  | [] => 0
  | it :: rest => if t1Lottery = it.1 then it.2 else GetCount.loop t1Lottery rest

/-- The member `GetCount(pLottery)`: the total for `NULL`, else the count of `*pLottery`. -/
def GetCount (box : CHMLotteryBox α) (pLottery : Option α) : Int :=
  match pLottery with
  | none => box.m_nCurrentLotteryCount
  | some t1Lottery => GetCount.loop t1Lottery box.m_listLotteryPool

/-- A call of one of the mutating public members, with its arguments. -/
inductive Call (α : Type) where
  | modify (pLottery : Option (List α)) (pCount : Option (List Int)) (nLen : Int)
  | modifyContainer (t2Lottery : List (α × Int))
  | draw (nRand : Int) (rnd : Int)
  | clear

/-- The box after a call. -/
def Call.run (box : CHMLotteryBox α) : Call α → CHMLotteryBox α
  | .modify pLottery pCount nLen => Modify box pLottery pCount nLen
  | .modifyContainer t2Lottery => ModifyContainer box t2Lottery
  | .draw nRand rnd => (Draw box nRand rnd).2
  | .clear => Clear box

/-- The box reached from a freshly constructed one by a sequence of calls. -/
def runCalls (calls : List (Call α)) : CHMLotteryBox α :=
  calls.foldl Call.run CHMLotteryBox.new

/-- The sum of the counts of the stored entries. -/
def countSum (l : List (α × Int)) : Int := (l.map Prod.snd).sum

/-- The total equals the sum of the stored counts and every stored count is positive. -/
def CHMLotteryBox.Inv (box : CHMLotteryBox α) : Prop :=
  box.m_nCurrentLotteryCount = countSum box.m_listLotteryPool ∧
    ∀ it ∈ box.m_listLotteryPool, 0 < it.2

/-- No two stored entries hold the same lottery. -/
def CHMLotteryBox.Distinct (box : CHMLotteryBox α) : Prop :=
  (box.m_listLotteryPool.map Prod.fst).Nodup

/-- A well-formed box: the data-model invariants on totals, counts and items. -/
def CHMLotteryBox.WellFormed (box : CHMLotteryBox α) : Prop :=
  box.Inv ∧ box.Distinct

/-- The sum of the counts of the entries before position `i`. -/
def cumulativeCountBefore (l : List (α × Int)) (i : Nat) : Int := countSum (l.take i)

/-- Three lotteries for the concrete examples. -/
inductive Ticket where
  | A | B | C
  deriving DecidableEq

/-- The box with three tickets of `A` and two of `B`. -/
def boxA3B2 : CHMLotteryBox Ticket :=
  { m_nCurrentLotteryCount := 5, m_listLotteryPool := [(Ticket.A, 3), (Ticket.B, 2)] }

/-- The box reached from a freshly constructed one by the call `Modify([A],[INT_MAX])`. -/
def boxAFull : CHMLotteryBox Ticket :=
  runCalls [Call.modify (some [Ticket.A]) (some [INT_MAX]) 1]

/-- The member `ModifyLotteryPool` when `push_back` may throw. With `pushOk = false` the
call of `push_back` throws; `std::list` is then left as it was, the exception is caught by
one of the two `catch` blocks, which only print a message, and control reaches
`return true`. With `pushOk = true` the entry is appended. -/
def ModifyLotteryPoolAlloc (pushOk : Bool) (t1Lottery : α) (nCount : Int) :
    List (α × Int) → Option (List (α × Int))
  | [] =>
    if 0 > nCount then none
    else if 0 < nCount then
      if pushOk then some [(t1Lottery, nCount)] else some []
    else some []
  | it :: rest =>
    if t1Lottery = it.1 then
      if 0 > it.2 + nCount then none
      else if 0 = it.2 + nCount then some rest
      else some ((it.1, it.2 + nCount) :: rest)
    else
      (ModifyLotteryPoolAlloc pushOk t1Lottery nCount rest).map (fun l => it :: l)

/-- One iteration of the loop of `Modify` when `push_back` may throw. -/
def Modify.bodyAlloc (pushOk : Bool) (box : CHMLotteryBox α) (t1Lottery : α) (nCount : Int) :
    CHMLotteryBox α :=
  if 0 = nCount ∨ m_scnLotteryBoxCapacity - box.m_nCurrentLotteryCount < nCount then box
  else
    match ModifyLotteryPoolAlloc pushOk t1Lottery nCount box.m_listLotteryPool with
    | none => box
    | some l =>
      { m_nCurrentLotteryCount := box.m_nCurrentLotteryCount + nCount, m_listLotteryPool := l }

/-- Consecutive calls of `Draw`, one for each hint of the list: the results in call order
and the box after the last call. -/
def drawAll (rnd : Int) : CHMLotteryBox α → List Int → List (Option α) × CHMLotteryBox α
  | box, [] => ([], box)
  | box, h :: hs =>
    ((Draw box h rnd).1 :: (drawAll rnd (Draw box h rnd).2 hs).1,
      (drawAll rnd (Draw box h rnd).2 hs).2)

/-- The member `Modify(pLottery, pCount, nLen)` when `push_back` may throw: `pushOk i`
says whether a call of `push_back` made in the iteration with index `i` succeeds. -/
def ModifyAlloc (pushOk : Nat → Bool) (box : CHMLotteryBox α) (pLottery : Option (List α))
    (pCount : Option (List Int)) (nLen : Int) : CHMLotteryBox α :=
  match pLottery, pCount with
  | some lottery, some count =>
    if 0 ≥ nLen then box
    else
      (List.range nLen.toNat).foldl
        (fun b i =>
          match lottery[i]?, count[i]? with
          | some x, some c => Modify.bodyAlloc (pushOk i) b x c
          | _, _ => b)
        box
  | _, _ => box

/-- The member template `Modify(t2Lottery)` when `push_back` may throw: `pushOk i` says
whether a call of `push_back` made for the `i`-th pair of the iteration succeeds. -/
def ModifyContainerAlloc (pushOk : Nat → Bool) (box : CHMLotteryBox α)
    (t2Lottery : List (α × Int)) : CHMLotteryBox α :=
  (List.range t2Lottery.length).foldl
    (fun b i =>
      match t2Lottery[i]? with
      | some it => Modify.bodyAlloc (pushOk i) b it.1 it.2
      | none => b)
    box

/-- A call of one of the mutating public members, with its arguments and, for `Modify`,
with the outcome of the calls of `push_back` it makes. -/
inductive CallAlloc (α : Type) where
  | modify (pushOk : Nat → Bool) (pLottery : Option (List α)) (pCount : Option (List Int))
      (nLen : Int)
  | modifyContainer (pushOk : Nat → Bool) (t2Lottery : List (α × Int))
  | draw (nRand : Int) (rnd : Int)
  | clear

/-- The box after a call, `push_back` throwing where the call says so. -/
def CallAlloc.run (box : CHMLotteryBox α) : CallAlloc α → CHMLotteryBox α
  | .modify pushOk pLottery pCount nLen => ModifyAlloc pushOk box pLottery pCount nLen
  | .modifyContainer pushOk t2Lottery => ModifyContainerAlloc pushOk box t2Lottery
  | .draw nRand rnd => (Draw box nRand rnd).2
  | .clear => Clear box

/-- The box reached from a freshly constructed one by a sequence of calls, `push_back`
throwing where the calls say so. -/
def runCallsAlloc (calls : List (CallAlloc α)) : CHMLotteryBox α :=
  calls.foldl CallAlloc.run CHMLotteryBox.new

/-- What every run keeps, also when `push_back` throws: the sum of the stored counts is
at most the total, the total is at most the capacity, every stored count is positive and
the stored lotteries are distinct. -/
def CHMLotteryBox.Weak (box : CHMLotteryBox α) : Prop :=
  countSum box.m_listLotteryPool ≤ box.m_nCurrentLotteryCount ∧
    box.m_nCurrentLotteryCount ≤ m_scnLotteryBoxCapacity ∧
    (∀ it ∈ box.m_listLotteryPool, 0 < it.2) ∧
    (box.m_listLotteryPool.map Prod.fst).Nodup

/-! ## The members with 32-bit `int` arithmetic

Each member is given once more with a parameter `ar` that turns the exact result of an
`int` operation (`+`, `-`, `%`) into the value the machine holds, or into `none` when the
operation has no value. The results are wrapped in one more `Option`, whose `none` means
that some operation had no value. Comparisons and the loop counter `i` of `Modify` do not
go through `ar`. -/

/-- The loop of `FindLotteryByRandKey` with `int` arithmetic given by `ar`. -/
def FindLotteryByRandKey32.loop (ar : Int → Option Int) (nRandKey : Int) :
    List (α × Int) → Int → Option (Option α)
  | [], _ => some none
  | it :: rest, nTop =>
    (ar (nTop + it.2)).bind (fun nTopNew =>
      if nRandKey ≥ nTop ∧ nRandKey < nTopNew then some (some it.1)
      else FindLotteryByRandKey32.loop ar nRandKey rest nTopNew)

/-- The member `FindLotteryByRandKey` with `int` arithmetic given by `ar`. -/
def FindLotteryByRandKey32 (ar : Int → Option Int) (pool : List (α × Int)) (nRandKey : Int) :
    Option (Option α) :=
  FindLotteryByRandKey32.loop ar nRandKey pool 0

theorem countSum_nil : countSum ([] : List (α × Int)) = 0 := rfl

theorem countSum_cons (it : α × Int) (l : List (α × Int)) :
    countSum (it :: l) = it.2 + countSum l := by
  simp [countSum]

theorem countSum_append (l₁ l₂ : List (α × Int)) :
    countSum (l₁ ++ l₂) = countSum l₁ + countSum l₂ := by
  simp [countSum]

theorem countSum_nonneg {l : List (α × Int)} (hpos : ∀ it ∈ l, 0 < it.2) :
    0 ≤ countSum l := by
  induction l with
  | nil => simp [countSum]
  | cons it rest ih =>
    have h1 := hpos it (List.mem_cons_self _ _)
    have h2 := ih (fun e he => hpos e (List.mem_cons_of_mem _ he))
    rw [countSum_cons]; omega

/-- An accepted `ModifyLotteryPool` changes the sum of the counts by exactly `nCount`. -/
theorem ModifyLotteryPool_countSum (x : α) (n : Int) :
    ∀ (l l' : List (α × Int)), ModifyLotteryPool x n l = some l' →
      countSum l' = countSum l + n := by
  intro l
  induction l with
  | nil =>
    intro l' h
    unfold ModifyLotteryPool at h
    split_ifs at h with h1 h2
    · cases h; simp [countSum]
    · cases h; simp [countSum]; omega
  | cons it rest ih =>
    intro l' h
    unfold ModifyLotteryPool at h
    split_ifs at h with h0 h1 h2
    · cases h; rw [countSum_cons]; omega
    · cases h; simp only [countSum_cons]; omega
    · cases hr : ModifyLotteryPool x n rest with
      | none => rw [hr] at h; simp at h
      | some r =>
        rw [hr] at h
        simp only [Option.map_some', Option.some.injEq] at h
        subst h
        have := ih r hr
        simp only [countSum_cons]; omega

/-- An accepted `ModifyLotteryPool` keeps every stored count positive. -/
theorem ModifyLotteryPool_pos (x : α) (n : Int) :
    ∀ (l l' : List (α × Int)), (∀ it ∈ l, 0 < it.2) → ModifyLotteryPool x n l = some l' →
      ∀ it ∈ l', 0 < it.2 := by
  intro l
  induction l with
  | nil =>
    intro l' _ h
    unfold ModifyLotteryPool at h
    split_ifs at h with h1 h2
    · cases h; intro it hit; simp at hit; subst hit; exact h2
    · cases h; simp
  | cons it rest ih =>
    intro l' hpos h
    have hrest : ∀ e ∈ rest, 0 < e.2 := fun e he => hpos e (List.mem_cons_of_mem _ he)
    unfold ModifyLotteryPool at h
    split_ifs at h with h0 h1 h2
    · cases h; exact hrest
    · cases h
      intro e he
      rcases List.mem_cons.1 he with rfl | he
      · show 0 < it.2 + n
        omega
      · exact hrest e he
    · cases hr : ModifyLotteryPool x n rest with
      | none => rw [hr] at h; simp at h
      | some r =>
        rw [hr] at h
        simp only [Option.map_some', Option.some.injEq] at h
        subst h
        intro e he
        rcases List.mem_cons.1 he with rfl | he
        · exact hpos _ (List.mem_cons_self _ _)
        · exact ih r hrest hr e he

/-- The loop of the array variant of `Modify` keeps whatever one iteration keeps. -/
theorem Modify_preserves (P : CHMLotteryBox α → Prop)
    (hbody : ∀ b x c, P b → P (Modify.body b x c))
    (box : CHMLotteryBox α) (pLottery : Option (List α)) (pCount : Option (List Int))
    (nLen : Int) (h : P box) : P (Modify box pLottery pCount nLen) := by
  unfold Modify
  split
  · rename_i lottery count
    split_ifs
    · exact h
    · generalize List.range nLen.toNat = idx
      induction idx generalizing box with
      | nil => exact h
      | cons i rest ih =>
        rw [List.foldl_cons]
        apply ih
        split
        · exact hbody _ _ _ h
        · exact h
  · exact h

/-- The loop of the container variant of `Modify` keeps whatever one iteration keeps. -/
theorem ModifyContainer_preserves (P : CHMLotteryBox α → Prop)
    (hbody : ∀ b x c, P b → P (Modify.body b x c))
    (box : CHMLotteryBox α) (t2Lottery : List (α × Int)) (h : P box) :
    P (ModifyContainer box t2Lottery) := by
  unfold ModifyContainer
  induction t2Lottery generalizing box with
  | nil => exact h
  | cons it rest ih =>
    rw [List.foldl_cons]
    exact ih _ (hbody _ _ _ h)

theorem Modify_body_Inv (b : CHMLotteryBox α) (x : α) (c : Int) (h : b.Inv) :
    (Modify.body b x c).Inv := by
  unfold Modify.body
  split_ifs with hskip
  · exact h
  · cases hm : ModifyLotteryPool x c b.m_listLotteryPool with
    | none => exact h
    | some l =>
      refine ⟨?_, ModifyLotteryPool_pos x c _ l h.2 hm⟩
      show b.m_nCurrentLotteryCount + c = countSum l
      rw [ModifyLotteryPool_countSum x c _ l hm, h.1]

/-- The two outcomes of `Draw`: a failure that leaves the box as it is, or a success that
takes one ticket of the lottery found for the key. -/
theorem Draw_cases (b : CHMLotteryBox α) (nRand rnd : Int) :
    Draw b nRand rnd = (none, b) ∨
      (0 < b.m_nCurrentLotteryCount ∧ ¬(nRand < 0 ∧ -1 ≠ nRand) ∧
        ∃ t l, FindLotteryByRandKey b.m_listLotteryPool (Draw.nKeyNum b nRand rnd) = some t ∧
          ModifyLotteryPool t (-1) b.m_listLotteryPool = some l ∧
          Draw b nRand rnd = (some t,
            { m_nCurrentLotteryCount := b.m_nCurrentLotteryCount - 1,
              m_listLotteryPool := l })) := by
  unfold Draw
  by_cases h0 : 0 ≥ b.m_nCurrentLotteryCount
  · left; rw [if_pos h0]
  · rw [if_neg h0]
    by_cases h1 : nRand < 0 ∧ -1 ≠ nRand
    · left; rw [if_pos h1]
    · rw [if_neg h1]
      cases hf : FindLotteryByRandKey b.m_listLotteryPool (Draw.nKeyNum b nRand rnd) with
      | none => left; rfl
      | some t =>
        cases hm : ModifyLotteryPool t (-1) b.m_listLotteryPool with
        | none => left; simp only [hm]
        | some l =>
          right
          exact ⟨by omega, h1, t, l, rfl, hm, by simp only [hm]⟩

theorem Draw_Inv (b : CHMLotteryBox α) (nRand rnd : Int) (h : b.Inv) :
    (Draw b nRand rnd).2.Inv := by
  rcases Draw_cases b nRand rnd with hd | ⟨_, _, t, l, _, hm, hd⟩
  · rw [hd]; exact h
  · rw [hd]
    refine ⟨?_, ModifyLotteryPool_pos t (-1) _ l h.2 hm⟩
    show b.m_nCurrentLotteryCount - 1 = countSum l
    rw [ModifyLotteryPool_countSum t (-1) _ l hm, h.1]; omega

theorem Clear_Inv (b : CHMLotteryBox α) : (Clear b).Inv := by
  refine ⟨rfl, ?_⟩
  intro it hit
  simp [Clear] at hit

theorem Call_run_Inv (b : CHMLotteryBox α) (c : Call α) (h : b.Inv) : (c.run b).Inv := by
  cases c with
  | modify pLottery pCount nLen =>
    exact Modify_preserves CHMLotteryBox.Inv Modify_body_Inv b pLottery pCount nLen h
  | modifyContainer t2Lottery =>
    exact ModifyContainer_preserves CHMLotteryBox.Inv Modify_body_Inv b t2Lottery h
  | draw nRand rnd => exact Draw_Inv b nRand rnd h
  | clear => exact Clear_Inv b

theorem foldl_Call_run_preserves (P : CHMLotteryBox α → Prop)
    (hstep : ∀ b (c : Call α), P b → P (c.run b)) (calls : List (Call α))
    (b : CHMLotteryBox α) (h : P b) : P (calls.foldl Call.run b) := by
  induction calls generalizing b with
  | nil => exact h
  | cons c rest ih => exact ih _ (hstep b c h)

theorem runCalls_Inv (calls : List (Call α)) : (runCalls calls).Inv := by
  refine foldl_Call_run_preserves CHMLotteryBox.Inv Call_run_Inv calls _ ?_
  refine ⟨rfl, ?_⟩
  intro it hit
  simp [CHMLotteryBox.new] at hit

theorem cumulativeCountBefore_zero (l : List (α × Int)) : cumulativeCountBefore l 0 = 0 := by
  simp [cumulativeCountBefore, countSum]

theorem cumulativeCountBefore_succ (it : α × Int) (l : List (α × Int)) (i : Nat) :
    cumulativeCountBefore (it :: l) (i + 1) = it.2 + cumulativeCountBefore l i := by
  simp [cumulativeCountBefore, countSum]

theorem cumulativeCountBefore_nonneg {l : List (α × Int)} (hpos : ∀ it ∈ l, 0 < it.2)
    (i : Nat) : 0 ≤ cumulativeCountBefore l i :=
  countSum_nonneg (fun it hit => hpos it (List.mem_of_mem_take hit))

/-- The range search: a key inside `[nTop, nTop + sum)` is found in exactly one entry, the
one whose half-open range contains the key. -/
theorem FindLotteryByRandKey_loop_spec (key : Int) :
    ∀ (l : List (α × Int)) (nTop : Int), (∀ it ∈ l, 0 < it.2) → nTop ≤ key →
      key < nTop + countSum l →
      ∃ i x c, l[i]? = some (x, c) ∧
        nTop + cumulativeCountBefore l i ≤ key ∧
        key < nTop + cumulativeCountBefore l i + c ∧
        FindLotteryByRandKey.loop key l nTop = some x ∧
        ∀ j y d, l[j]? = some (y, d) → nTop + cumulativeCountBefore l j ≤ key →
          key < nTop + cumulativeCountBefore l j + d → j = i := by
  intro l
  induction l with
  | nil =>
    intro nTop _ h1 h2
    rw [countSum_nil] at h2; omega
  | cons it rest ih =>
    intro nTop hpos h1 h2
    have hrest : ∀ e ∈ rest, 0 < e.2 := fun e he => hpos e (List.mem_cons_of_mem _ he)
    rw [countSum_cons] at h2
    by_cases hk : key < nTop + it.2
    · refine ⟨0, it.1, it.2, by simp, ?_, ?_, ?_, ?_⟩
      · rw [cumulativeCountBefore_zero]; omega
      · rw [cumulativeCountBefore_zero]; omega
      · unfold FindLotteryByRandKey.loop
        exact if_pos ⟨h1, hk⟩
      · intro j y d hj hlo _
        cases j with
        | zero => rfl
        | succ j =>
          rw [cumulativeCountBefore_succ] at hlo
          have := cumulativeCountBefore_nonneg hrest j
          omega
    · obtain ⟨i, x, c, hi, hlo, hhi, hfind, huniq⟩ := ih (nTop + it.2) hrest (by omega) (by omega)
      refine ⟨i + 1, x, c, ?_, ?_, ?_, ?_, ?_⟩
      · simpa using hi
      · rw [cumulativeCountBefore_succ]; omega
      · rw [cumulativeCountBefore_succ]; omega
      · unfold FindLotteryByRandKey.loop
        have hneg : ¬(key ≥ nTop ∧ key < nTop + it.2) := fun h => hk h.2
        simp only [hneg, if_false]
        exact hfind
      · intro j y d hj hlo' hhi'
        cases j with
        | zero =>
          simp only [List.getElem?_cons_zero, Option.some.injEq] at hj
          rw [cumulativeCountBefore_zero] at hhi'
          have : it.2 = d := by rw [hj]
          omega
        | succ j =>
          rw [cumulativeCountBefore_succ] at hlo' hhi'
          have hj' : rest[j]? = some (y, d) := by simpa using hj
          have := huniq j y d hj' (by omega) (by omega)
          omega

/-- The range search only returns lotteries that are stored. -/
theorem FindLotteryByRandKey_loop_mem (key : Int) :
    ∀ (l : List (α × Int)) (nTop : Int) (x : α),
      FindLotteryByRandKey.loop key l nTop = some x → x ∈ l.map Prod.fst := by
  intro l
  induction l with
  | nil => intro nTop x h; simp [FindLotteryByRandKey.loop] at h
  | cons it rest ih =>
    intro nTop x h
    unfold FindLotteryByRandKey.loop at h
    dsimp only at h
    split_ifs at h with hk
    · cases h; simp
    · have := ih _ x h
      simp only [List.map_cons, List.mem_cons]
      exact Or.inr this

/-- The member `ModifyLotteryPool` returns `false` exactly when the first matching count plus `nCount`
is negative (an absent lottery counting 0). -/
theorem ModifyLotteryPool_eq_none_iff (x : α) (n : Int) :
    ∀ l : List (α × Int), ModifyLotteryPool x n l = none ↔ GetCount.loop x l + n < 0 := by
  intro l
  induction l with
  | nil =>
    unfold ModifyLotteryPool GetCount.loop
    split_ifs with h1 h2 <;> simp <;> omega
  | cons it rest ih =>
    unfold ModifyLotteryPool GetCount.loop
    split_ifs with h0 h1 h2
    · simp; omega
    · simp; omega
    · simp; omega
    · simp only [Option.map_eq_none']
      exact ih

/-- A stored lottery has a positive count when every stored count is positive. -/
theorem GetCount_loop_pos_of_mem (x : α) :
    ∀ l : List (α × Int), (∀ it ∈ l, 0 < it.2) → x ∈ l.map Prod.fst →
      0 < GetCount.loop x l := by
  intro l
  induction l with
  | nil => intro _ h; simp at h
  | cons it rest ih =>
    intro hpos hx
    unfold GetCount.loop
    split_ifs with h0
    · exact hpos it (List.mem_cons_self _ _)
    · apply ih (fun e he => hpos e (List.mem_cons_of_mem _ he))
      simp only [List.map_cons, List.mem_cons] at hx
      rcases hx with hx | hx
      · exact absurd hx h0
      · exact hx

/-- An absent lottery counts 0. -/
theorem GetCount_loop_of_not_mem (x : α) :
    ∀ l : List (α × Int), x ∉ l.map Prod.fst → GetCount.loop x l = 0 := by
  intro l
  induction l with
  | nil => intro _; rfl
  | cons it rest ih =>
    intro hx
    simp only [List.map_cons, List.mem_cons, not_or] at hx
    unfold GetCount.loop
    rw [if_neg hx.1]
    exact ih hx.2

/-- The key of a draw with a usable hint is the hint (or the value of `rand()`) modulo the
total, and lies in `[0, total)`. -/
theorem Draw_nKeyNum_eq (b : CHMLotteryBox α) (nRand rnd : Int)
    (htot : 0 < b.m_nCurrentLotteryCount) (hh : 0 ≤ nRand ∨ (nRand = -1 ∧ 0 ≤ rnd)) :
    Draw.nKeyNum b nRand rnd = (if nRand = -1 then rnd else nRand) % b.m_nCurrentLotteryCount ∧
      0 ≤ Draw.nKeyNum b nRand rnd ∧ Draw.nKeyNum b nRand rnd < b.m_nCurrentLotteryCount := by
  have hv : 0 ≤ (if -1 = nRand then rnd else nRand) := by
    split_ifs with h <;> omega
  have hcond : (if nRand = -1 then rnd else nRand) = (if -1 = nRand then rnd else nRand) := by
    split_ifs <;> first | rfl | omega
  unfold Draw.nKeyNum
  rw [hcond, Int.tmod_eq_emod hv (by omega)]
  exact ⟨rfl, Int.emod_nonneg _ (by omega), Int.emod_lt_of_pos _ htot⟩

/-- On a box that satisfies the invariant and holds a ticket, a draw with a usable hint
succeeds: the range search finds a lottery and one ticket of it is taken. -/
theorem Draw_succeeds (b : CHMLotteryBox α) (nRand rnd : Int) (hinv : b.Inv)
    (htot : 0 < b.m_nCurrentLotteryCount) (hh : 0 ≤ nRand ∨ (nRand = -1 ∧ 0 ≤ rnd)) :
    ∃ t l, FindLotteryByRandKey b.m_listLotteryPool (Draw.nKeyNum b nRand rnd) = some t ∧
      ModifyLotteryPool t (-1) b.m_listLotteryPool = some l ∧
      Draw b nRand rnd = (some t,
        { m_nCurrentLotteryCount := b.m_nCurrentLotteryCount - 1, m_listLotteryPool := l }) := by
  obtain ⟨_, hk0, hk1⟩ := Draw_nKeyNum_eq b nRand rnd htot hh
  obtain ⟨i, x, c, _, _, _, hfind, _⟩ :=
    FindLotteryByRandKey_loop_spec (Draw.nKeyNum b nRand rnd) b.m_listLotteryPool 0 hinv.2
      hk0 (by rw [← hinv.1]; omega)
  have hmem := FindLotteryByRandKey_loop_mem _ _ _ _ hfind
  have hpos := GetCount_loop_pos_of_mem x _ hinv.2 hmem
  have hnn : ModifyLotteryPool x (-1) b.m_listLotteryPool ≠ none := by
    rw [Ne, ModifyLotteryPool_eq_none_iff]; omega
  obtain ⟨l, hl⟩ := Option.ne_none_iff_exists'.1 hnn
  refine ⟨x, l, hfind, hl, ?_⟩
  unfold Draw
  have h0 : ¬ (0 ≥ b.m_nCurrentLotteryCount) := by omega
  have h1 : ¬ (nRand < 0 ∧ -1 ≠ nRand) := by omega
  rw [if_neg h0, if_neg h1]
  have hfind' : FindLotteryByRandKey b.m_listLotteryPool (Draw.nKeyNum b nRand rnd) = some x :=
    hfind
  simp only [hfind', hl]

/-! ## Lemmas on counting keys -/

/-- Counting depends only on the predicate below the bound. -/
theorem count_congr_below (p q : Nat → Prop) [DecidablePred p] [DecidablePred q] :
    ∀ n : Nat, (∀ k < n, p k ↔ q k) → Nat.count p n = Nat.count q n := by
  intro n
  induction n with
  | zero => intro _; simp
  | succ n ih =>
    intro h
    rw [Nat.count_succ, Nat.count_succ, ih (fun k hk => h k (by omega))]
    have hn := h n (by omega)
    by_cases hp : p n
    · rw [if_pos hp, if_pos (hn.1 hp)]
    · rw [if_neg hp, if_neg (fun hq => hp (hn.2 hq))]

/-- The range search is invariant under shifting the key and the running sum together. -/
theorem FindLotteryByRandKey_loop_shift (d : Int) :
    ∀ (l : List (α × Int)) (key nTop : Int),
      FindLotteryByRandKey.loop (key + d) l (nTop + d) = FindLotteryByRandKey.loop key l nTop := by
  intro l
  induction l with
  | nil => intro key nTop; rfl
  | cons it rest ih =>
    intro key nTop
    unfold FindLotteryByRandKey.loop
    dsimp only
    have harg : nTop + d + it.2 = (nTop + it.2) + d := by omega
    rw [harg, ih key (nTop + it.2)]
    by_cases hk : key ≥ nTop ∧ key < nTop + it.2
    · rw [if_pos hk, if_pos (by omega)]
    · rw [if_neg hk, if_neg (by omega)]

/-- With distinct lotteries and positive counts, the number of keys below the sum of the
counts that the range search maps to `X` is the count stored for `X`. -/
theorem FindLotteryByRandKey_count (X : α) :
    ∀ l : List (α × Int), (∀ it ∈ l, 0 < it.2) → (l.map Prod.fst).Nodup →
      (Nat.count (fun k : Nat => FindLotteryByRandKey.loop (k : Int) l 0 = some X)
        (countSum l).toNat : Int) = GetCount.loop X l := by
  intro l
  induction l with
  | nil => intro _ _; simp [countSum, GetCount.loop]
  | cons it rest ih =>
    intro hpos hnd
    have hrest : ∀ e ∈ rest, 0 < e.2 := fun e he => hpos e (List.mem_cons_of_mem _ he)
    have hc : 0 < it.2 := hpos it (List.mem_cons_self _ _)
    have hs : 0 ≤ countSum rest := countSum_nonneg hrest
    simp only [List.map_cons, List.nodup_cons] at hnd
    have ih' := ih hrest hnd.2
    have hsplit : (countSum (it :: rest)).toNat = it.2.toNat + (countSum rest).toNat := by
      rw [countSum_cons]; omega
    rw [hsplit, Nat.count_add]
    -- keys at or above the first count fall through to the rest of the list
    have htail : Nat.count
        (fun k : Nat => FindLotteryByRandKey.loop ((it.2.toNat + k : Nat) : Int) (it :: rest) 0
          = some X) (countSum rest).toNat
        = Nat.count (fun k : Nat => FindLotteryByRandKey.loop (k : Int) rest 0 = some X)
          (countSum rest).toNat := by
      apply count_congr_below
      intro k _
      have hkey : ((it.2.toNat + k : Nat) : Int) = (k : Int) + it.2 := by omega
      have hstep : FindLotteryByRandKey.loop ((k : Int) + it.2) (it :: rest) 0
          = FindLotteryByRandKey.loop ((k : Int) + it.2) rest (0 + it.2) := by
        conv_lhs => unfold FindLotteryByRandKey.loop
        dsimp only
        rw [if_neg (by omega)]
      rw [hkey, hstep, FindLotteryByRandKey_loop_shift]
    rw [htail]
    -- keys below the first count hit the first entry
    have hhead : ∀ k : Nat, k < it.2.toNat →
        FindLotteryByRandKey.loop (k : Int) (it :: rest) 0 = some it.1 := by
      intro k hk
      unfold FindLotteryByRandKey.loop
      dsimp only
      rw [if_pos (by omega)]
    by_cases hX : X = it.1
    · have h1 : Nat.count
          (fun k : Nat => FindLotteryByRandKey.loop (k : Int) (it :: rest) 0 = some X)
          it.2.toNat = it.2.toNat := by
        rw [Nat.count_iff_forall]
        intro k hk
        rw [hhead k hk, hX]
      have h2 : GetCount.loop X rest = 0 :=
        GetCount_loop_of_not_mem X rest (by rw [hX]; exact hnd.1)
      rw [h1]
      unfold GetCount.loop
      rw [if_pos hX]
      push_cast
      rw [ih', h2]
      omega
    · have h1 : Nat.count
          (fun k : Nat => FindLotteryByRandKey.loop (k : Int) (it :: rest) 0 = some X)
          it.2.toNat = 0 := by
        rw [Nat.count_iff_forall_not]
        intro k hk
        rw [hhead k hk]
        intro h
        exact hX (Option.some.inj h).symm
      rw [h1]
      unfold GetCount.loop
      rw [if_neg hX]
      push_cast
      rw [ih']
      omega

/-! ## Lemmas on taking and putting tickets -/

/-- With distinct lotteries, an accepted `ModifyLotteryPool` changes the count of its
lottery by exactly `nCount`. -/
theorem ModifyLotteryPool_GetCount_self (x : α) (n : Int) :
    ∀ (l l' : List (α × Int)), (l.map Prod.fst).Nodup → ModifyLotteryPool x n l = some l' →
      GetCount.loop x l' = GetCount.loop x l + n := by
  intro l
  induction l with
  | nil =>
    intro l' _ h
    unfold ModifyLotteryPool at h
    split_ifs at h with h1 h2
    · cases h; simp [GetCount.loop]
    · cases h; simp [GetCount.loop]; omega
  | cons it rest ih =>
    intro l' hnd h
    simp only [List.map_cons, List.nodup_cons] at hnd
    unfold ModifyLotteryPool at h
    split_ifs at h with h0 h1 h2
    · cases h
      rw [GetCount_loop_of_not_mem x rest (by rw [h0]; exact hnd.1)]
      unfold GetCount.loop
      rw [if_pos h0]; omega
    · cases h
      unfold GetCount.loop
      rw [if_pos h0, if_pos h0]
    · cases hr : ModifyLotteryPool x n rest with
      | none => rw [hr] at h; simp at h
      | some r =>
        rw [hr] at h
        simp only [Option.map_some', Option.some.injEq] at h
        subst h
        unfold GetCount.loop
        rw [if_neg h0, if_neg h0]
        exact ih r hnd.2 hr

/-- With distinct lotteries, an accepted `ModifyLotteryPool` that brings the count of its
lottery to 0 leaves no entry for it. -/
theorem ModifyLotteryPool_not_mem (x : α) (n : Int) :
    ∀ (l l' : List (α × Int)), (l.map Prod.fst).Nodup → ModifyLotteryPool x n l = some l' →
      GetCount.loop x l + n = 0 → x ∉ l'.map Prod.fst := by
  intro l
  induction l with
  | nil =>
    intro l' _ h hz
    unfold ModifyLotteryPool at h
    simp only [GetCount.loop] at hz
    split_ifs at h with h1 h2
    · omega
    · cases h; simp
  | cons it rest ih =>
    intro l' hnd h hz
    simp only [List.map_cons, List.nodup_cons] at hnd
    unfold GetCount.loop at hz
    unfold ModifyLotteryPool at h
    split_ifs at h with h0 h1 h2
    · cases h; rw [h0]; exact hnd.1
    · rw [if_pos h0] at hz; omega
    · rw [if_neg h0] at hz
      cases hr : ModifyLotteryPool x n rest with
      | none => rw [hr] at h; simp at h
      | some r =>
        rw [hr] at h
        simp only [Option.map_some', Option.some.injEq] at h
        subst h
        simp only [List.map_cons, List.mem_cons, not_or]
        exact ⟨h0, ih r hnd.2 hr hz⟩

/-- Putting tickets of a lottery that is not stored appends a new entry at the end. -/
theorem ModifyLotteryPool_absent (x : α) (n : Int) (hn : 0 < n) :
    ∀ l : List (α × Int), x ∉ l.map Prod.fst →
      ModifyLotteryPool x n l = some (l ++ [(x, n)]) := by
  intro l
  induction l with
  | nil =>
    intro _
    unfold ModifyLotteryPool
    rw [if_neg (by omega), if_pos hn]
    rfl
  | cons it rest ih =>
    intro hx
    simp only [List.map_cons, List.mem_cons, not_or] at hx
    unfold ModifyLotteryPool
    rw [if_neg hx.1, ih hx.2]
    rfl

/-- An accepted change of a stored lottery acts on its first entry, at a position `i`:
the entry is erased when the new count is 0 and is overwritten in place otherwise. -/
theorem ModifyLotteryPool_present (x : α) (n : Int) :
    ∀ l : List (α × Int), x ∈ l.map Prod.fst → 0 ≤ GetCount.loop x l + n →
      ∃ i, l[i]? = some (x, GetCount.loop x l) ∧
        ModifyLotteryPool x n l
          = some (if GetCount.loop x l + n = 0 then l.eraseIdx i
                  else l.set i (x, GetCount.loop x l + n)) := by
  intro l
  induction l with
  | nil => intro hx; simp at hx
  | cons it rest ih =>
    intro hx hge
    by_cases h0 : x = it.1
    · have hc : GetCount.loop x (it :: rest) = it.2 := by
        show (if x = it.1 then it.2 else GetCount.loop x rest) = _
        rw [if_pos h0]
      rw [hc] at hge ⊢
      refine ⟨0, ?_, ?_⟩
      · rw [h0]; simp
      · unfold ModifyLotteryPool
        rw [if_pos h0, if_neg (by omega)]
        by_cases hz : 0 = it.2 + n
        · rw [if_pos hz, if_pos hz.symm]; rfl
        · rw [if_neg hz, if_neg (fun h => hz h.symm), h0]; rfl
    · have hc : GetCount.loop x (it :: rest) = GetCount.loop x rest := by
        show (if x = it.1 then it.2 else GetCount.loop x rest) = _
        rw [if_neg h0]
      rw [hc] at hge ⊢
      simp only [List.map_cons, List.mem_cons] at hx
      have hx' : x ∈ rest.map Prod.fst := by
        rcases hx with hx | hx
        · exact absurd hx h0
        · exact hx
      obtain ⟨i, hi, hm⟩ := ih hx' hge
      refine ⟨i + 1, by simpa using hi, ?_⟩
      unfold ModifyLotteryPool
      rw [if_neg h0, hm]
      by_cases hz : GetCount.loop x rest + n = 0
      · rw [if_pos hz, if_pos hz]; rfl
      · rw [if_neg hz, if_neg hz]; rfl

/-- A call of `Modify` on one lottery and one count runs the loop body once. -/
theorem Modify_single (box : CHMLotteryBox α) (x : α) (c : Int) :
    Modify box (some [x]) (some [c]) 1 = Modify.body box x c := by
  simp [Modify, List.range_succ]

/-- The index loop of `Modify` visits the pairs of the two arrays in order. -/
theorem Modify_loop_eq_foldl_zip (xs : List α) (cs : List Int) :
    ∀ (n : Nat) (box : CHMLotteryBox α),
      (List.range n).foldl
          (fun b i =>
            match xs[i]?, cs[i]? with
            | some x, some c => Modify.body b x c
            | _, _ => b)
          box
        = ((xs.zip cs).take n).foldl (fun b e => Modify.body b e.1 e.2) box := by
  intro n
  induction n with
  | zero => intro box; rfl
  | succ n ih =>
    intro box
    rw [List.range_succ, List.foldl_append, ih, List.take_succ, List.foldl_append]
    unfold List.zip
    rw [List.getElem?_zipWith]
    cases hx : xs[n]? <;> cases hc : cs[n]? <;> simp [hx, hc]

theorem boxA3B2_WellFormed : boxA3B2.WellFormed := by
  refine ⟨⟨by decide, ?_⟩, ?_⟩
  · intro it hit
    simp only [boxA3B2, List.mem_cons, List.mem_singleton, List.not_mem_nil, or_false] at hit
    rcases hit with rfl | rfl <;> decide
  · show ([(Ticket.A, (3 : Int)), (Ticket.B, 2)].map Prod.fst).Nodup
    decide

/-! ## Lemmas on round trips and on distinct lotteries -/

theorem GetCount_loop_nonneg (x : α) (l : List (α × Int)) (hpos : ∀ it ∈ l, 0 < it.2) :
    0 ≤ GetCount.loop x l := by
  by_cases hx : x ∈ l.map Prod.fst
  · exact le_of_lt (GetCount_loop_pos_of_mem x l hpos hx)
  · rw [GetCount_loop_of_not_mem x l hx]

/-- With positive counts, taking back the `n > 0` tickets that an accepted
`ModifyLotteryPool` has put restores the list. -/
theorem ModifyLotteryPool_round_trip (x : α) (n : Int) (hn : 0 < n) :
    ∀ (l l' : List (α × Int)), (∀ it ∈ l, 0 < it.2) → ModifyLotteryPool x n l = some l' →
      ModifyLotteryPool x (-n) l' = some l := by
  intro l
  induction l with
  | nil =>
    intro l' _ h
    unfold ModifyLotteryPool at h
    rw [if_neg (by omega), if_pos hn] at h
    cases h
    unfold ModifyLotteryPool
    rw [if_pos rfl, if_neg (by omega), if_pos (by omega)]
  | cons it rest ih =>
    intro l' hpos h
    have hc : 0 < it.2 := hpos it (List.mem_cons_self _ _)
    unfold ModifyLotteryPool at h
    split_ifs at h with h0 h1 h2
    · omega
    · cases h
      unfold ModifyLotteryPool
      have hback : it.2 + n + -n = it.2 := by omega
      simp only [hback]
      rw [if_pos h0, if_neg (by omega), if_neg (by omega)]
    · cases hr : ModifyLotteryPool x n rest with
      | none => rw [hr] at h; simp at h
      | some r =>
        rw [hr] at h
        simp only [Option.map_some', Option.some.injEq] at h
        subst h
        unfold ModifyLotteryPool
        rw [if_neg h0, ih r (fun e he => hpos e (List.mem_cons_of_mem _ he)) hr]
        rfl

/-- An accepted `ModifyLotteryPool` stores no lottery other than the old ones and its own. -/
theorem ModifyLotteryPool_mem_fst (x : α) (n : Int) (y : α) :
    ∀ (l l' : List (α × Int)), ModifyLotteryPool x n l = some l' → y ∈ l'.map Prod.fst →
      y ∈ l.map Prod.fst ∨ y = x := by
  intro l
  induction l with
  | nil =>
    intro l' h hy
    unfold ModifyLotteryPool at h
    split_ifs at h with h1 h2
    · cases h
      simp only [List.map_cons, List.map_nil, List.mem_singleton] at hy
      exact Or.inr hy
    · cases h; simp at hy
  | cons it rest ih =>
    intro l' h hy
    unfold ModifyLotteryPool at h
    split_ifs at h with h0 h1 h2
    · cases h
      left
      simp only [List.map_cons, List.mem_cons]
      exact Or.inr hy
    · cases h
      left
      simpa using hy
    · cases hr : ModifyLotteryPool x n rest with
      | none => rw [hr] at h; simp at h
      | some r =>
        rw [hr] at h
        simp only [Option.map_some', Option.some.injEq] at h
        subst h
        simp only [List.map_cons, List.mem_cons] at hy ⊢
        rcases hy with hy | hy
        · exact Or.inl (Or.inl hy)
        · rcases ih r hr hy with h3 | h3
          · exact Or.inl (Or.inr h3)
          · exact Or.inr h3

/-- An accepted `ModifyLotteryPool` keeps the stored lotteries distinct. -/
theorem ModifyLotteryPool_nodup (x : α) (n : Int) :
    ∀ (l l' : List (α × Int)), (l.map Prod.fst).Nodup → ModifyLotteryPool x n l = some l' →
      (l'.map Prod.fst).Nodup := by
  intro l
  induction l with
  | nil =>
    intro l' _ h
    unfold ModifyLotteryPool at h
    split_ifs at h with h1 h2
    · cases h; simp
    · cases h; simp
  | cons it rest ih =>
    intro l' hnd h
    simp only [List.map_cons, List.nodup_cons] at hnd
    unfold ModifyLotteryPool at h
    split_ifs at h with h0 h1 h2
    · cases h; exact hnd.2
    · cases h
      simp only [List.map_cons, List.nodup_cons]
      exact hnd
    · cases hr : ModifyLotteryPool x n rest with
      | none => rw [hr] at h; simp at h
      | some r =>
        rw [hr] at h
        simp only [Option.map_some', Option.some.injEq] at h
        subst h
        simp only [List.map_cons, List.nodup_cons]
        refine ⟨?_, ih r hnd.2 hr⟩
        intro hmem
        rcases ModifyLotteryPool_mem_fst x n it.1 rest r hr hmem with h3 | h3
        · exact hnd.1 h3
        · exact h0 h3.symm

theorem Modify_body_Distinct (b : CHMLotteryBox α) (x : α) (c : Int) (h : b.Distinct) :
    (Modify.body b x c).Distinct := by
  unfold Modify.body
  split_ifs with hskip
  · exact h
  · cases hm : ModifyLotteryPool x c b.m_listLotteryPool with
    | none => exact h
    | some l => exact ModifyLotteryPool_nodup x c _ l h hm

theorem Draw_Distinct (b : CHMLotteryBox α) (nRand rnd : Int) (h : b.Distinct) :
    (Draw b nRand rnd).2.Distinct := by
  rcases Draw_cases b nRand rnd with hd | ⟨_, _, t, l, _, hm, hd⟩
  · rw [hd]; exact h
  · rw [hd]; exact ModifyLotteryPool_nodup t (-1) _ l h hm

theorem Call_run_Distinct (b : CHMLotteryBox α) (c : Call α) (h : b.Distinct) :
    (c.run b).Distinct := by
  cases c with
  | modify pLottery pCount nLen =>
    exact Modify_preserves CHMLotteryBox.Distinct Modify_body_Distinct b pLottery pCount nLen h
  | modifyContainer t2Lottery =>
    exact ModifyContainer_preserves CHMLotteryBox.Distinct Modify_body_Distinct b t2Lottery h
  | draw nRand rnd => exact Draw_Distinct b nRand rnd h
  | clear => exact List.nodup_nil

theorem runCalls_Distinct (calls : List (Call α)) : (runCalls calls).Distinct :=
  foldl_Call_run_preserves CHMLotteryBox.Distinct Call_run_Distinct calls _ List.nodup_nil

theorem zip_map_fst_map_snd (l : List (α × Int)) :
    (l.map Prod.fst).zip (l.map Prod.snd) = l := by
  induction l with
  | nil => rfl
  | cons e rest ih => simp [ih]

theorem boxAFull_eq :
    boxAFull = { m_nCurrentLotteryCount := INT_MAX, m_listLotteryPool := [(Ticket.A, INT_MAX)] } := by
  decide

/-! ## Lemmas on the frame of a change and on a failing insertion -/

/-- When `push_back` succeeds the model with a fallible insertion is the plain one. -/
theorem ModifyLotteryPoolAlloc_true (x : α) (n : Int) :
    ∀ l : List (α × Int), ModifyLotteryPoolAlloc true x n l = ModifyLotteryPool x n l := by
  intro l
  induction l with
  | nil => unfold ModifyLotteryPoolAlloc ModifyLotteryPool; simp
  | cons it rest ih => unfold ModifyLotteryPoolAlloc ModifyLotteryPool; rw [ih]

/-- When `push_back` throws while `n > 0` tickets of an absent lottery are put,
`ModifyLotteryPool` still returns `true`, with the list as it was. -/
theorem ModifyLotteryPoolAlloc_false_absent (x : α) (n : Int) (hn : 0 < n) :
    ∀ l : List (α × Int), x ∉ l.map Prod.fst →
      ModifyLotteryPoolAlloc false x n l = some l := by
  intro l
  induction l with
  | nil =>
    intro _
    unfold ModifyLotteryPoolAlloc
    rw [if_neg (by omega), if_pos hn]
    rfl
  | cons it rest ih =>
    intro hx
    simp only [List.map_cons, List.mem_cons, not_or] at hx
    unfold ModifyLotteryPoolAlloc
    rw [if_neg hx.1, ih hx.2]
    rfl

/-- For a stored lottery no `push_back` is called: the outcome flag does not matter. -/
theorem ModifyLotteryPoolAlloc_of_mem (pushOk : Bool) (x : α) (n : Int) :
    ∀ l : List (α × Int), x ∈ l.map Prod.fst →
      ModifyLotteryPoolAlloc pushOk x n l = ModifyLotteryPool x n l := by
  intro l
  induction l with
  | nil => intro hx; simp at hx
  | cons it rest ih =>
    intro hx
    unfold ModifyLotteryPoolAlloc ModifyLotteryPool
    by_cases h0 : x = it.1
    · rw [if_pos h0, if_pos h0]
    · simp only [List.map_cons, List.mem_cons] at hx
      have hx' : x ∈ rest.map Prod.fst := by
        rcases hx with hx | hx
        · exact absurd hx h0
        · exact hx
      rw [if_neg h0, if_neg h0, ih hx']

/-- For a count that is not positive no `push_back` is called: the outcome flag does not
matter. -/
theorem ModifyLotteryPoolAlloc_of_nonpos (pushOk : Bool) (x : α) (n : Int) (hn : n ≤ 0) :
    ∀ l : List (α × Int), ModifyLotteryPoolAlloc pushOk x n l = ModifyLotteryPool x n l := by
  intro l
  induction l with
  | nil =>
    unfold ModifyLotteryPoolAlloc ModifyLotteryPool
    by_cases h1 : 0 > n
    · rw [if_pos h1, if_pos h1]
    · rw [if_neg h1, if_neg h1, if_neg (by omega), if_neg (by omega)]
  | cons it rest ih =>
    unfold ModifyLotteryPoolAlloc ModifyLotteryPool
    rw [ih]

/-- One loop iteration of `Modify` does not depend on the outcome of `push_back` when
`push_back` succeeds, or the lottery is stored, or the count is not positive, or the
element is skipped by the capacity guard. -/
theorem Modify_bodyAlloc_eq_body (pushOk : Bool) (box : CHMLotteryBox α) (x : α) (n : Int)
    (h : pushOk = true ∨ x ∈ box.m_listLotteryPool.map Prod.fst ∨ n ≤ 0 ∨
      m_scnLotteryBoxCapacity - box.m_nCurrentLotteryCount < n) :
    Modify.bodyAlloc pushOk box x n = Modify.body box x n := by
  unfold Modify.bodyAlloc Modify.body
  by_cases hskip : 0 = n ∨ m_scnLotteryBoxCapacity - box.m_nCurrentLotteryCount < n
  · rw [if_pos hskip, if_pos hskip]
  · rw [if_neg hskip, if_neg hskip]
    have heq : ModifyLotteryPoolAlloc pushOk x n box.m_listLotteryPool
        = ModifyLotteryPool x n box.m_listLotteryPool := by
      rcases h with h | h | h | h
      · rw [h]; exact ModifyLotteryPoolAlloc_true x n _
      · exact ModifyLotteryPoolAlloc_of_mem pushOk x n _ h
      · exact ModifyLotteryPoolAlloc_of_nonpos pushOk x n h _
      · exact absurd (Or.inr h) hskip
    rw [heq]

/-- A call of `Modify` on one lottery and one count runs the loop body once, with the
outcome of `push_back` of the iteration 0. -/
theorem ModifyAlloc_single (pushOk : Nat → Bool) (box : CHMLotteryBox α) (x : α) (c : Int) :
    ModifyAlloc pushOk box (some [x]) (some [c]) 1 = Modify.bodyAlloc (pushOk 0) box x c := by
  simp [ModifyAlloc, List.range_succ]

/-- The two outcomes of `ModifyLotteryPool` when `push_back` may throw: the outcome of
the run without a throw, or `true` with the list as it was, for a positive count of an
absent lottery. -/
theorem ModifyLotteryPoolAlloc_cases (pushOk : Bool) (x : α) (n : Int) (l : List (α × Int)) :
    ModifyLotteryPoolAlloc pushOk x n l = ModifyLotteryPool x n l ∨
      (0 < n ∧ ModifyLotteryPoolAlloc pushOk x n l = some l) := by
  cases pushOk with
  | true => exact Or.inl (ModifyLotteryPoolAlloc_true x n l)
  | false =>
    by_cases hx : x ∈ l.map Prod.fst
    · exact Or.inl (ModifyLotteryPoolAlloc_of_mem false x n l hx)
    · by_cases hn : n ≤ 0
      · exact Or.inl (ModifyLotteryPoolAlloc_of_nonpos false x n hn l)
      · exact Or.inr ⟨by omega, ModifyLotteryPoolAlloc_false_absent x n (by omega) l hx⟩

theorem Modify_bodyAlloc_Weak (pushOk : Bool) (b : CHMLotteryBox α) (x : α) (c : Int)
    (h : b.Weak) : (Modify.bodyAlloc pushOk b x c).Weak := by
  obtain ⟨hsum, hcap, hpos, hnd⟩ := h
  unfold Modify.bodyAlloc
  split_ifs with hskip
  · exact ⟨hsum, hcap, hpos, hnd⟩
  · rcases ModifyLotteryPoolAlloc_cases pushOk x c b.m_listLotteryPool with heq | ⟨hc, heq⟩
    · rw [heq]
      cases hm : ModifyLotteryPool x c b.m_listLotteryPool with
      | none => exact ⟨hsum, hcap, hpos, hnd⟩
      | some l =>
        refine ⟨?_, ?_, ModifyLotteryPool_pos x c _ l hpos hm,
          ModifyLotteryPool_nodup x c _ l hnd hm⟩
        · show countSum l ≤ b.m_nCurrentLotteryCount + c
          rw [ModifyLotteryPool_countSum x c _ l hm]; omega
        · show b.m_nCurrentLotteryCount + c ≤ m_scnLotteryBoxCapacity
          omega
    · rw [heq]
      refine ⟨?_, ?_, hpos, hnd⟩
      · show countSum b.m_listLotteryPool ≤ b.m_nCurrentLotteryCount + c
        omega
      · show b.m_nCurrentLotteryCount + c ≤ m_scnLotteryBoxCapacity
        omega

theorem Draw_Weak (b : CHMLotteryBox α) (nRand rnd : Int) (h : b.Weak) :
    (Draw b nRand rnd).2.Weak := by
  obtain ⟨hsum, hcap, hpos, hnd⟩ := h
  rcases Draw_cases b nRand rnd with hd | ⟨_, _, t, l, _, hm, hd⟩
  · rw [hd]; exact ⟨hsum, hcap, hpos, hnd⟩
  · rw [hd]
    refine ⟨?_, ?_, ModifyLotteryPool_pos t (-1) _ l hpos hm,
      ModifyLotteryPool_nodup t (-1) _ l hnd hm⟩
    · show countSum l ≤ b.m_nCurrentLotteryCount - 1
      rw [ModifyLotteryPool_countSum t (-1) _ l hm]; omega
    · show b.m_nCurrentLotteryCount - 1 ≤ m_scnLotteryBoxCapacity
      omega

theorem new_Weak : (CHMLotteryBox.new : CHMLotteryBox α).Weak :=
  ⟨by simp [CHMLotteryBox.new, countSum], by simp [CHMLotteryBox.new, m_scnLotteryBoxCapacity,
    INT_MAX], by intro it hit; simp [CHMLotteryBox.new] at hit, List.nodup_nil⟩

theorem CallAlloc_run_Weak (b : CHMLotteryBox α) (c : CallAlloc α) (h : b.Weak) :
    (c.run b).Weak := by
  cases c with
  | modify pushOk pLottery pCount nLen =>
    show (ModifyAlloc pushOk b pLottery pCount nLen).Weak
    unfold ModifyAlloc
    split
    · rename_i lottery count
      split_ifs
      · exact h
      · generalize List.range nLen.toNat = idx
        induction idx generalizing b with
        | nil => exact h
        | cons i rest ih =>
          rw [List.foldl_cons]
          apply ih
          split
          · exact Modify_bodyAlloc_Weak _ _ _ _ h
          · exact h
    · exact h
  | modifyContainer pushOk t2Lottery =>
    show (ModifyContainerAlloc pushOk b t2Lottery).Weak
    unfold ModifyContainerAlloc
    generalize List.range t2Lottery.length = idx
    induction idx generalizing b with
    | nil => exact h
    | cons i rest ih =>
      rw [List.foldl_cons]
      apply ih
      split
      · exact Modify_bodyAlloc_Weak _ _ _ _ h
      · exact h
  | draw nRand rnd => exact Draw_Weak b nRand rnd h
  | clear => exact new_Weak

/-- Every box reached by a sequence of calls, also when `push_back` throws, keeps the sum
of the stored counts at most the total, the total at most the capacity, the stored counts
positive and the stored lotteries distinct. -/
theorem runCallsAlloc_Weak (calls : List (CallAlloc α)) : (runCallsAlloc calls).Weak := by
  have hgen : ∀ (cs : List (CallAlloc α)) (b0 : CHMLotteryBox α), b0.Weak →
      (cs.foldl CallAlloc.run b0).Weak := by
    intro cs
    induction cs with
    | nil => intro b0 h0; exact h0
    | cons c rest ih => intro b0 h0; exact ih _ (CallAlloc_run_Weak b0 c h0)
  exact hgen calls _ new_Weak

/-- An accepted `ModifyLotteryPool` leaves the count of every other lottery as it was. -/
theorem ModifyLotteryPool_GetCount_other (x : α) (n : Int) (y : α) (hy : y ≠ x) :
    ∀ (l l' : List (α × Int)), ModifyLotteryPool x n l = some l' →
      GetCount.loop y l' = GetCount.loop y l := by
  intro l
  induction l with
  | nil =>
    intro l' h
    unfold ModifyLotteryPool at h
    split_ifs at h with h1 h2
    · cases h
      show (if y = x then n else GetCount.loop y []) = GetCount.loop y []
      rw [if_neg hy]
    · cases h; rfl
  | cons it rest ih =>
    intro l' h
    unfold ModifyLotteryPool at h
    split_ifs at h with h0 h1 h2
    · cases h
      show GetCount.loop y rest = (if y = it.1 then it.2 else GetCount.loop y rest)
      rw [if_neg (by rw [← h0]; exact hy)]
    · cases h
      show (if y = it.1 then it.2 + n else GetCount.loop y rest)
        = (if y = it.1 then it.2 else GetCount.loop y rest)
      rw [if_neg (by rw [← h0]; exact hy), if_neg (by rw [← h0]; exact hy)]
    · cases hr : ModifyLotteryPool x n rest with
      | none => rw [hr] at h; simp at h
      | some r =>
        rw [hr] at h
        simp only [Option.map_some', Option.some.injEq] at h
        subst h
        show (if y = it.1 then it.2 else GetCount.loop y r)
          = (if y = it.1 then it.2 else GetCount.loop y rest)
        rw [ih r hr]

/-- An accepted `ModifyLotteryPool` leaves the entries of the other lotteries, and their
order, as they were. -/
theorem ModifyLotteryPool_filter_ne (x : α) (n : Int) :
    ∀ (l l' : List (α × Int)), ModifyLotteryPool x n l = some l' →
      l'.filter (fun e => e.1 ≠ x) = l.filter (fun e => e.1 ≠ x) := by
  intro l
  induction l with
  | nil =>
    intro l' h
    unfold ModifyLotteryPool at h
    split_ifs at h with h1 h2
    · cases h; simp
    · cases h; rfl
  | cons it rest ih =>
    intro l' h
    unfold ModifyLotteryPool at h
    split_ifs at h with h0 h1 h2
    · cases h
      rw [List.filter_cons_of_neg (by simp [h0])]
    · cases h
      rw [List.filter_cons_of_neg (by simp [h0]), List.filter_cons_of_neg (by simp [h0])]
    · cases hr : ModifyLotteryPool x n rest with
      | none => rw [hr] at h; simp at h
      | some r =>
        rw [hr] at h
        simp only [Option.map_some', Option.some.injEq] at h
        subst h
        have hne : it.1 ≠ x := fun heq => h0 heq.symm
        rw [List.filter_cons_of_pos (by simp [hne]), List.filter_cons_of_pos (by simp [hne]),
          ih r hr]

/-- One loop iteration of `Modify` leaves the other lotteries as they were. -/
theorem Modify_body_frame (box : CHMLotteryBox α) (A : α) (n : Int) :
    (∀ B, B ≠ A → GetCount.loop B (Modify.body box A n).m_listLotteryPool
        = GetCount.loop B box.m_listLotteryPool) ∧
      (Modify.body box A n).m_listLotteryPool.filter (fun e => e.1 ≠ A)
        = box.m_listLotteryPool.filter (fun e => e.1 ≠ A) := by
  unfold Modify.body
  split_ifs with hskip
  · exact ⟨fun _ _ => rfl, rfl⟩
  · cases hm : ModifyLotteryPool A n box.m_listLotteryPool with
    | none => exact ⟨fun _ _ => rfl, rfl⟩
    | some l =>
      exact ⟨fun B hB => ModifyLotteryPool_GetCount_other A n B hB _ l hm,
        ModifyLotteryPool_filter_ne A n _ l hm⟩

/-- A box that satisfies the invariant and has total 0 has no entries. -/
theorem Inv_total_zero (box : CHMLotteryBox α) (hinv : box.Inv)
    (h0 : box.m_nCurrentLotteryCount = 0) :
    box = { m_nCurrentLotteryCount := 0, m_listLotteryPool := [] } := by
  obtain ⟨tot, l⟩ := box
  obtain ⟨hsum, hpos⟩ := hinv
  simp only at h0 hsum hpos
  subst h0
  cases l with
  | nil => rfl
  | cons it rest =>
    exfalso
    have h1 := hpos it (List.mem_cons_self _ _)
    have h2 := countSum_nonneg (fun e he => hpos e (List.mem_cons_of_mem _ he))
    rw [countSum_cons] at hsum
    omega

/-! ## Lemmas on 32-bit arithmetic -/

/-- C1, the code at the failing input: when `push_back` throws while `Modify([A],[1])`
runs on the freshly constructed box, the box reached has total 1 and no entry, so the
cached total is not the sum of the stored counts; when the second `push_back` of
`Modify([A,B],[3,2])` throws, the box reached has total 5 and the entries `[(A,3)]`. When
`push_back` does not throw the call gives the box of the plain run. -/
theorem reachable_total_ne_sum_of_failed_push_back :
    runCallsAlloc [CallAlloc.modify (fun _ => false) (some [Ticket.A]) (some [1]) 1]
        = { m_nCurrentLotteryCount := 1, m_listLotteryPool := [] } ∧
      (runCallsAlloc [CallAlloc.modify (fun _ => false) (some [Ticket.A]) (some [1])
          1]).m_nCurrentLotteryCount
        ≠ ((runCallsAlloc [CallAlloc.modify (fun _ => false) (some [Ticket.A]) (some [1])
            1]).m_listLotteryPool.map Prod.snd).sum ∧
      runCallsAlloc [CallAlloc.modify (fun i => decide (i = 0))
          (some [Ticket.A, Ticket.B]) (some [3, 2]) 2]
        = { m_nCurrentLotteryCount := 5, m_listLotteryPool := [(Ticket.A, 3)] } ∧
      runCallsAlloc [CallAlloc.modify (fun _ => true) (some [Ticket.A]) (some [1]) 1]
        = runCalls [Call.modify (some [Ticket.A]) (some [1]) 1] := by
  refine ⟨by decide, by decide, by decide, by decide⟩

/-- C3: on a box whose total is the sum of its counts, with all counts positive and a
positive total, a draw with hint `h ≥ 0` (or, for `h = -1`, with the value `rnd ≥ 0` of
`rand()`) returns the lottery of the unique entry `i` whose half-open range
`[sum of the counts before i, that sum + count i)` contains `key = h mod total`; hence two
hints with the same remainder draw the same lottery. -/
theorem Draw_selects_range_entry (box : CHMLotteryBox α) (h rnd : Int) (hinv : box.Inv)
    (htot : 0 < box.m_nCurrentLotteryCount) (hh : 0 ≤ h ∨ (h = -1 ∧ 0 ≤ rnd)) :
    (∃ i x c, box.m_listLotteryPool[i]? = some (x, c) ∧
        cumulativeCountBefore box.m_listLotteryPool i
          ≤ (if h = -1 then rnd else h) % box.m_nCurrentLotteryCount ∧
        (if h = -1 then rnd else h) % box.m_nCurrentLotteryCount
          < cumulativeCountBefore box.m_listLotteryPool i + c ∧
        (Draw box h rnd).1 = some x ∧
        ∀ j y d, box.m_listLotteryPool[j]? = some (y, d) →
          cumulativeCountBefore box.m_listLotteryPool j
            ≤ (if h = -1 then rnd else h) % box.m_nCurrentLotteryCount →
          (if h = -1 then rnd else h) % box.m_nCurrentLotteryCount
            < cumulativeCountBefore box.m_listLotteryPool j + d → j = i) ∧
      ∀ h' rnd', (0 ≤ h' ∨ (h' = -1 ∧ 0 ≤ rnd')) →
        (if h' = -1 then rnd' else h') % box.m_nCurrentLotteryCount
          = (if h = -1 then rnd else h) % box.m_nCurrentLotteryCount →
        (Draw box h' rnd').1 = (Draw box h rnd).1 := by
  obtain ⟨hkey, hk0, hk1⟩ := Draw_nKeyNum_eq box h rnd htot hh
  obtain ⟨t, l, hfind, _, hdraw⟩ := Draw_succeeds box h rnd hinv htot hh
  constructor
  · obtain ⟨i, x, c, hi, hlo, hhi, hf, huniq⟩ :=
      FindLotteryByRandKey_loop_spec (Draw.nKeyNum box h rnd) box.m_listLotteryPool 0 hinv.2
        hk0 (by rw [← hinv.1]; omega)
    have hxt : x = t := by
      have h2 : FindLotteryByRandKey box.m_listLotteryPool (Draw.nKeyNum box h rnd) = some x := hf
      rw [hfind] at h2
      exact (Option.some.inj h2).symm
    rw [← hkey]
    refine ⟨i, x, c, hi, by omega, by omega, by rw [hdraw, hxt], ?_⟩
    intro j y d hj h1 h2
    exact huniq j y d hj (by omega) (by omega)
  · intro h' rnd' hh' heq
    obtain ⟨hkey', _, _⟩ := Draw_nKeyNum_eq box h' rnd' htot hh'
    obtain ⟨t', l', hfind', _, hdraw'⟩ := Draw_succeeds box h' rnd' hinv htot hh'
    have hk : Draw.nKeyNum box h' rnd' = Draw.nKeyNum box h rnd := by
      rw [hkey', hkey, heq]
    rw [hk, hfind] at hfind'
    rw [hdraw, hdraw']
    exact hfind'.symm

/-- C3, witness: on the entries `[(A,3),(B,2)]` the hints 0, 1, 2 draw `A` and the hints
3, 4 draw `B`; the hint 8 has the remainder 3 and draws what the hint 3 draws. -/
theorem Draw_selects_range_entry_witness :
    boxA3B2.Inv ∧ 0 < boxA3B2.m_nCurrentLotteryCount ∧
      (Draw boxA3B2 0 0).1 = some Ticket.A ∧ (Draw boxA3B2 1 0).1 = some Ticket.A ∧
      (Draw boxA3B2 2 0).1 = some Ticket.A ∧ (Draw boxA3B2 3 0).1 = some Ticket.B ∧
      (Draw boxA3B2 4 0).1 = some Ticket.B ∧
      (Draw boxA3B2 8 0).1 = (Draw boxA3B2 3 0).1 :=
  have hinv : boxA3B2.Inv := boxA3B2_WellFormed.1
  ⟨hinv, by decide, by decide, by decide, by decide, by decide, by decide,
    (Draw_selects_range_entry boxA3B2 3 0 hinv (by decide) (Or.inl (by decide))).2 8 0
      (Or.inl (by decide)) (by decide)⟩

/-- C4: on a well-formed box (distinct lotteries, positive counts, total equal to the sum
of the counts) with a positive total, the number of keys `k` in `[0, total)` for which
`Draw` with hint `k` returns `X` is exactly `GetCount(X)`: under a uniform key each lottery
is drawn with probability `GetCount(X) / total`. -/
theorem Draw_weighted (box : CHMLotteryBox α) (X : α) (rnd : Int) (hwf : box.WellFormed)
    (htot : 0 < box.m_nCurrentLotteryCount) :
    (Nat.count (fun k : Nat => (Draw box (k : Int) rnd).1 = some X)
      box.m_nCurrentLotteryCount.toNat : Int) = GetCount box (some X) := by
  have hcount := FindLotteryByRandKey_count X box.m_listLotteryPool hwf.1.2 hwf.2
  rw [← hwf.1.1] at hcount
  show _ = GetCount.loop X box.m_listLotteryPool
  rw [← hcount]
  congr 1
  apply count_congr_below
  intro k hk
  have hh : 0 ≤ (k : Int) ∨ ((k : Int) = -1 ∧ 0 ≤ rnd) := Or.inl (by omega)
  obtain ⟨hkey, _, _⟩ := Draw_nKeyNum_eq box (k : Int) rnd htot hh
  obtain ⟨t, l, hfind, _, hdraw⟩ := Draw_succeeds box (k : Int) rnd hwf.1 htot hh
  have hk' : Draw.nKeyNum box (k : Int) rnd = (k : Int) := by
    rw [hkey, if_neg (by omega)]
    exact Int.emod_eq_of_lt (by omega) (by omega)
  rw [hk'] at hfind
  have hfind' : FindLotteryByRandKey.loop (k : Int) box.m_listLotteryPool 0 = some t := hfind
  rw [hdraw, hfind']

/-- C4, witness: of the five keys of the box `[(A,3),(B,2)]`, three draw `A`. -/
theorem Draw_weighted_witness :
    boxA3B2.WellFormed ∧ 0 < boxA3B2.m_nCurrentLotteryCount ∧
      (Nat.count (fun k : Nat => (Draw boxA3B2 (k : Int) 0).1 = some Ticket.A)
        boxA3B2.m_nCurrentLotteryCount.toNat : Int) = GetCount boxA3B2 (some Ticket.A) ∧
      GetCount boxA3B2 (some Ticket.A) = 3 :=
  ⟨boxA3B2_WellFormed, by decide, Draw_weighted boxA3B2 Ticket.A 0 boxA3B2_WellFormed (by decide), by decide⟩

/-- C5: on a well-formed box, whatever the hint, a draw that succeeds and returns `X`
leaves `GetCount(X)` exactly one less than before and `GetCount()` exactly one less than
before; if the count of `X` was 1, the entry of `X` is gone and `GetCount(X) == 0`. -/
theorem Draw_removes_one (box : CHMLotteryBox α) (h rnd : Int) (X : α)
    (hwf : box.WellFormed) (hdraw : (Draw box h rnd).1 = some X) :
    GetCount (Draw box h rnd).2 (some X) = GetCount box (some X) - 1 ∧
      GetCount (Draw box h rnd).2 none = GetCount box none - 1 ∧
      (GetCount box (some X) = 1 →
        X ∉ (Draw box h rnd).2.m_listLotteryPool.map Prod.fst ∧
          GetCount (Draw box h rnd).2 (some X) = 0) := by
  rcases Draw_cases box h rnd with hd | ⟨_, _, t, l, _, hm, hd⟩
  · rw [hd] at hdraw; cases hdraw
  · rw [hd] at hdraw
    have htX : t = X := Option.some.inj hdraw
    subst htX
    rw [hd]
    have hself := ModifyLotteryPool_GetCount_self t (-1) _ l hwf.2 hm
    refine ⟨?_, rfl, ?_⟩
    · show GetCount.loop t l = GetCount.loop t box.m_listLotteryPool - 1
      rw [hself]; omega
    · intro hone
      have hone' : GetCount.loop t box.m_listLotteryPool = 1 := hone
      refine ⟨ModifyLotteryPool_not_mem t (-1) _ l hwf.2 hm (by omega), ?_⟩
      show GetCount.loop t l = 0
      rw [hself]; omega

/-- C5, witness: drawing with hint 3 from `[(A,3),(B,2)]` returns `B`, leaving one `B`
and four tickets. -/
theorem Draw_removes_one_witness :
    boxA3B2.WellFormed ∧ (Draw boxA3B2 3 0).1 = some Ticket.B ∧
      GetCount (Draw boxA3B2 3 0).2 (some Ticket.B) = GetCount boxA3B2 (some Ticket.B) - 1 ∧
      GetCount (Draw boxA3B2 3 0).2 none = GetCount boxA3B2 none - 1 :=
  have h := Draw_removes_one boxA3B2 3 0 Ticket.B boxA3B2_WellFormed (by decide)
  ⟨boxA3B2_WellFormed, by decide, h.1, h.2.1⟩

/-- C6: on a box that satisfies the invariant, for every hint `h` (with a value
`rnd ≥ 0` of `rand()` used when `h = -1`), `Draw` returns failure if and only if the total
is 0 or `h` is negative and different from -1; in particular with a positive total and
`h ≥ 0` the range search finds an entry, the decrement is accepted and `Draw` succeeds. -/
theorem Draw_fails_iff (box : CHMLotteryBox α) (h rnd : Int) (hinv : box.Inv)
    (hrnd : 0 ≤ rnd) :
    ((Draw box h rnd).1 = none ↔ (box.m_nCurrentLotteryCount = 0 ∨ (h < 0 ∧ h ≠ -1))) ∧
      (0 < box.m_nCurrentLotteryCount → 0 ≤ h →
        ∃ x l, FindLotteryByRandKey box.m_listLotteryPool (h % box.m_nCurrentLotteryCount)
            = some x ∧
          ModifyLotteryPool x (-1) box.m_listLotteryPool = some l ∧
          (Draw box h rnd).1 = some x) := by
  have hnn : 0 ≤ box.m_nCurrentLotteryCount := by
    rw [hinv.1]; exact countSum_nonneg hinv.2
  constructor
  · constructor
    · intro hnone
      by_contra hcon
      have hh : 0 ≤ h ∨ (h = -1 ∧ 0 ≤ rnd) := by omega
      obtain ⟨t, l, _, _, hd⟩ := Draw_succeeds box h rnd hinv (by omega) hh
      rw [hd] at hnone
      cases hnone
    · intro hor
      unfold Draw
      by_cases h0 : 0 ≥ box.m_nCurrentLotteryCount
      · rw [if_pos h0]
      · rw [if_neg h0, if_pos (by omega)]
  · intro htot hh
    obtain ⟨hkey, _, _⟩ := Draw_nKeyNum_eq box h rnd htot (Or.inl hh)
    obtain ⟨t, l, hfind, hm, hd⟩ := Draw_succeeds box h rnd hinv htot (Or.inl hh)
    rw [hkey, if_neg (by omega)] at hfind
    exact ⟨t, l, hfind, hm, by rw [hd]⟩

/-- C6, witness: on `[(A,3),(B,2)]` the hint -2 fails and the hints 3 and -1 succeed. -/
theorem Draw_fails_iff_witness :
    boxA3B2.Inv ∧ (Draw boxA3B2 (-2) 0).1 = none ∧ (Draw boxA3B2 3 0).1 ≠ none ∧
      (Draw boxA3B2 (-1) 7).1 ≠ none :=
  ⟨boxA3B2_WellFormed.1,
    (Draw_fails_iff boxA3B2 (-2) 0 boxA3B2_WellFormed.1 (by decide)).1.2
      (Or.inr (by decide)),
    by decide, by decide⟩

/-- C7: for every box, well-formed or not, and every hint, a `Draw` that returns failure
leaves the entries and the total exactly as they were; a draw on a box with total 0 fails
and leaves the box unchanged, and so does a draw with a negative hint other than -1. -/
theorem Draw_failure_no_mutation (box : CHMLotteryBox α) (h rnd : Int) :
    ((Draw box h rnd).1 = none → (Draw box h rnd).2 = box) ∧
      (box.m_nCurrentLotteryCount = 0 → Draw box h rnd = (none, box)) ∧
      ((h < 0 ∧ h ≠ -1) → Draw box h rnd = (none, box)) := by
  refine ⟨?_, ?_, ?_⟩
  · intro hnone
    rcases Draw_cases box h rnd with hd | ⟨_, _, t, l, _, _, hd⟩
    · rw [hd]
    · rw [hd] at hnone; cases hnone
  · intro h0
    unfold Draw
    rw [if_pos (by omega)]
  · intro hneg
    unfold Draw
    by_cases h0 : 0 ≥ box.m_nCurrentLotteryCount
    · rw [if_pos h0]
    · rw [if_neg h0, if_pos (by omega)]

/-- C7, witness: a draw on the freshly constructed box fails and leaves it as it is; a
draw with hint -2 on `[(A,3),(B,2)]` fails and leaves it as it is. -/
theorem Draw_failure_no_mutation_witness :
    Draw (CHMLotteryBox.new : CHMLotteryBox Ticket) 0 0 = (none, CHMLotteryBox.new) ∧
      (Draw boxA3B2 (-2) 0).2 = boxA3B2 :=
  ⟨(Draw_failure_no_mutation (CHMLotteryBox.new : CHMLotteryBox Ticket) 0 0).2.1 rfl,
    (Draw_failure_no_mutation boxA3B2 (-2) 0).1 (by decide)⟩

/-- On the runs in which `push_back` does not throw: on a well-formed box with total `t`,
for a lottery `A` with `c = GetCount(A)` and a count `n` with `n ≠ 0`, `n ≤ capacity - t`
and `c + n ≥ 0`, the call `Modify([A],[n])` gives `GetCount(A) == c + n` and
`GetCount() == t + n`; an absent `A` is appended at the end; otherwise the entry of `A`,
at some position `i`, is erased if `c + n == 0` and else keeps its position with the count
`c + n`. -/
theorem Modify_accepted_effect_plain (box : CHMLotteryBox α) (A : α) (n : Int)
    (hwf : box.WellFormed) (hn : n ≠ 0)
    (hcap : n ≤ m_scnLotteryBoxCapacity - GetCount box none)
    (hge : 0 ≤ GetCount box (some A) + n) :
    GetCount (Modify box (some [A]) (some [n]) 1) (some A) = GetCount box (some A) + n ∧
      GetCount (Modify box (some [A]) (some [n]) 1) none = GetCount box none + n ∧
      (GetCount box (some A) = 0 →
        (Modify box (some [A]) (some [n]) 1).m_listLotteryPool
          = box.m_listLotteryPool ++ [(A, n)]) ∧
      (GetCount box (some A) ≠ 0 →
        ∃ i, box.m_listLotteryPool[i]? = some (A, GetCount box (some A)) ∧
          (GetCount box (some A) + n = 0 →
            (Modify box (some [A]) (some [n]) 1).m_listLotteryPool
              = box.m_listLotteryPool.eraseIdx i) ∧
          (GetCount box (some A) + n ≠ 0 →
            (Modify box (some [A]) (some [n]) 1).m_listLotteryPool
              = box.m_listLotteryPool.set i (A, GetCount box (some A) + n))) := by
  have hcap' : n ≤ m_scnLotteryBoxCapacity - box.m_nCurrentLotteryCount := hcap
  have hge' : 0 ≤ GetCount.loop A box.m_listLotteryPool + n := hge
  have hnn : ModifyLotteryPool A n box.m_listLotteryPool ≠ none := by
    rw [Ne, ModifyLotteryPool_eq_none_iff]; omega
  obtain ⟨l, hl⟩ := Option.ne_none_iff_exists'.1 hnn
  have hbody : Modify box (some [A]) (some [n]) 1
      = { m_nCurrentLotteryCount := box.m_nCurrentLotteryCount + n, m_listLotteryPool := l } := by
    rw [Modify_single]
    unfold Modify.body
    rw [if_neg (by omega)]
    simp only [hl]
  rw [hbody]
  refine ⟨ModifyLotteryPool_GetCount_self A n _ l hwf.2 hl, rfl, ?_, ?_⟩
  · intro hc
    have hc' : GetCount.loop A box.m_listLotteryPool = 0 := hc
    have habs : A ∉ box.m_listLotteryPool.map Prod.fst := by
      intro hmem
      have := GetCount_loop_pos_of_mem A _ hwf.1.2 hmem
      omega
    have := ModifyLotteryPool_absent A n (by omega) _ habs
    rw [hl] at this
    exact Option.some.inj this
  · intro hc
    have hc' : GetCount.loop A box.m_listLotteryPool ≠ 0 := hc
    have hmem : A ∈ box.m_listLotteryPool.map Prod.fst := by
      by_contra habs
      exact hc' (GetCount_loop_of_not_mem A _ habs)
    obtain ⟨i, hi, hm⟩ := ModifyLotteryPool_present A n _ hmem hge'
    rw [hl] at hm
    have hm' := Option.some.inj hm
    refine ⟨i, hi, ?_, ?_⟩
    · intro hz
      have hz' : GetCount.loop A box.m_listLotteryPool + n = 0 := hz
      rw [if_pos hz'] at hm'
      exact hm'
    · intro hz
      have hz' : ¬ GetCount.loop A box.m_listLotteryPool + n = 0 := hz
      rw [if_neg hz'] at hm'
      exact hm'

/-- C8 as stated fails: on the freshly constructed box, which is well-formed, with
`n = 1` (so `n ≠ 0`, `n ≤ capacity - t` and `c + n ≥ 0`), when the `push_back` of the new
entry throws, `Modify([A],[1])` leaves `GetCount(A)` at 0 instead of `c + n = 1` and
appends no entry. -/
theorem Modify_accepted_effect_counterexample :
    (CHMLotteryBox.new : CHMLotteryBox Ticket).WellFormed ∧ (1 : Int) ≠ 0 ∧
      (1 : Int) ≤ m_scnLotteryBoxCapacity
        - GetCount (CHMLotteryBox.new : CHMLotteryBox Ticket) none ∧
      0 ≤ GetCount (CHMLotteryBox.new : CHMLotteryBox Ticket) (some Ticket.A) + 1 ∧
      GetCount (CHMLotteryBox.new : CHMLotteryBox Ticket) (some Ticket.A) = 0 ∧
      GetCount (ModifyAlloc (fun _ => false) (CHMLotteryBox.new : CHMLotteryBox Ticket)
          (some [Ticket.A]) (some [1]) 1) (some Ticket.A)
        ≠ GetCount (CHMLotteryBox.new : CHMLotteryBox Ticket) (some Ticket.A) + 1 ∧
      (ModifyAlloc (fun _ => false) (CHMLotteryBox.new : CHMLotteryBox Ticket)
          (some [Ticket.A]) (some [1]) 1).m_listLotteryPool
        ≠ (CHMLotteryBox.new : CHMLotteryBox Ticket).m_listLotteryPool ++ [(Ticket.A, 1)] :=
  ⟨⟨runCalls_Inv [], runCalls_Distinct []⟩, by decide, by decide, by decide, by decide,
    by decide, by decide⟩

/-- C8, amended: on a well-formed box with total `t`, for a lottery `A` with
`c = GetCount(A)` and a count `n` with `n ≠ 0`, `n ≤ capacity - t` and `c + n ≥ 0`, and
provided that `A` is stored (`c ≠ 0`) or the `push_back` of its new entry does not throw,
the call `Modify([A],[n])` gives `GetCount(A) == c + n` and `GetCount() == t + n`; if `A`
was absent (`c == 0`) the entry `(A, n)` is appended at the end; otherwise the entry of
`A`, at some position `i`, is erased if `c + n == 0` and else keeps its position with the
count `c + n`. -/
theorem Modify_accepted_effect (pushOk : Nat → Bool) (box : CHMLotteryBox α) (A : α)
    (n : Int) (hwf : box.WellFormed) (hn : n ≠ 0)
    (hcap : n ≤ m_scnLotteryBoxCapacity - GetCount box none)
    (hge : 0 ≤ GetCount box (some A) + n)
    (hins : GetCount box (some A) ≠ 0 ∨ pushOk 0 = true) :
    GetCount (ModifyAlloc pushOk box (some [A]) (some [n]) 1) (some A)
        = GetCount box (some A) + n ∧
      GetCount (ModifyAlloc pushOk box (some [A]) (some [n]) 1) none
        = GetCount box none + n ∧
      (GetCount box (some A) = 0 →
        (ModifyAlloc pushOk box (some [A]) (some [n]) 1).m_listLotteryPool
          = box.m_listLotteryPool ++ [(A, n)]) ∧
      (GetCount box (some A) ≠ 0 →
        ∃ i, box.m_listLotteryPool[i]? = some (A, GetCount box (some A)) ∧
          (GetCount box (some A) + n = 0 →
            (ModifyAlloc pushOk box (some [A]) (some [n]) 1).m_listLotteryPool
              = box.m_listLotteryPool.eraseIdx i) ∧
          (GetCount box (some A) + n ≠ 0 →
            (ModifyAlloc pushOk box (some [A]) (some [n]) 1).m_listLotteryPool
              = box.m_listLotteryPool.set i (A, GetCount box (some A) + n))) := by
  have heq : ModifyAlloc pushOk box (some [A]) (some [n]) 1
      = Modify box (some [A]) (some [n]) 1 := by
    rw [ModifyAlloc_single, Modify_single]
    apply Modify_bodyAlloc_eq_body
    rcases hins with h | h
    · right; left
      by_contra habs
      exact h (GetCount_loop_of_not_mem A _ habs)
    · left; exact h
  rw [heq]
  exact Modify_accepted_effect_plain box A n hwf hn hcap hge

/-- C8, witness: on `[(A,3),(B,2)]`, whether or not `push_back` would throw,
`Modify([B],[-2])` erases the entry of `B` and `Modify([A],[4])` makes the entry of `A`
count 7 in place; with a `push_back` that does not throw `Modify([C],[1])` appends
`(C,1)`. -/
theorem Modify_accepted_effect_witness :
    boxA3B2.WellFormed ∧
      (GetCount (ModifyAlloc (fun _ => false) boxA3B2 (some [Ticket.B]) (some [-2]) 1)
            (some Ticket.B)
          = GetCount boxA3B2 (some Ticket.B) + -2 ∧
        GetCount (ModifyAlloc (fun _ => false) boxA3B2 (some [Ticket.B]) (some [-2]) 1) none
          = GetCount boxA3B2 none + -2) ∧
      ModifyAlloc (fun _ => false) boxA3B2 (some [Ticket.B]) (some [-2]) 1
        = { m_nCurrentLotteryCount := 3, m_listLotteryPool := [(Ticket.A, 3)] } ∧
      ModifyAlloc (fun _ => false) boxA3B2 (some [Ticket.A]) (some [4]) 1
        = { m_nCurrentLotteryCount := 9,
            m_listLotteryPool := [(Ticket.A, 7), (Ticket.B, 2)] } ∧
      ModifyAlloc (fun _ => true) boxA3B2 (some [Ticket.C]) (some [1]) 1
        = { m_nCurrentLotteryCount := 6,
            m_listLotteryPool := [(Ticket.A, 3), (Ticket.B, 2), (Ticket.C, 1)] } :=
  have h := Modify_accepted_effect (fun _ => false) boxA3B2 Ticket.B (-2)
    boxA3B2_WellFormed (by decide) (by decide) (by decide) (Or.inl (by decide))
  ⟨boxA3B2_WellFormed, ⟨h.1, h.2.1⟩, by decide, by decide, by decide⟩

/-- C9: on a well-formed box, for a lottery `A` and a negative count `n` with
`GetCount(A) + n < 0` (also when `A` is absent), `Modify([A],[n])` leaves the box
completely unchanged, and no count that is negative or zero is stored. -/
theorem Modify_withdraw_insufficient (box : CHMLotteryBox α) (A : α) (n : Int)
    (hwf : box.WellFormed) (_hn : n < 0) (hlt : GetCount box (some A) + n < 0) :
    Modify box (some [A]) (some [n]) 1 = box ∧
      ∀ it ∈ (Modify box (some [A]) (some [n]) 1).m_listLotteryPool, 0 < it.2 := by
  have hlt' : GetCount.loop A box.m_listLotteryPool + n < 0 := hlt
  have hnone := (ModifyLotteryPool_eq_none_iff A n box.m_listLotteryPool).2 hlt'
  have heq : Modify box (some [A]) (some [n]) 1 = box := by
    rw [Modify_single]
    unfold Modify.body
    split_ifs
    · rfl
    · simp only [hnone]
  rw [heq]
  exact ⟨rfl, hwf.1.2⟩

/-- The box with two tickets of `A` is well-formed. -/
theorem boxA2_WellFormed :
    ({ m_nCurrentLotteryCount := 2, m_listLotteryPool := [(Ticket.A, 2)] } :
      CHMLotteryBox Ticket).WellFormed := by
  refine ⟨⟨by decide, ?_⟩, ?_⟩
  · intro it hit
    simp only [List.mem_singleton] at hit
    subst hit; decide
  · show ([(Ticket.A, (2 : Int))].map Prod.fst).Nodup
    decide

/-- C9, witness: on the box `[(A,2)]`, `Modify([A],[-5])` changes nothing; neither does
`Modify([B],[-1])` for the absent `B`. -/
theorem Modify_withdraw_insufficient_witness :
    Modify ({ m_nCurrentLotteryCount := 2, m_listLotteryPool := [(Ticket.A, 2)] } :
        CHMLotteryBox Ticket) (some [Ticket.A]) (some [-5]) 1
      = { m_nCurrentLotteryCount := 2, m_listLotteryPool := [(Ticket.A, 2)] } ∧
    Modify ({ m_nCurrentLotteryCount := 2, m_listLotteryPool := [(Ticket.A, 2)] } :
        CHMLotteryBox Ticket) (some [Ticket.B]) (some [-1]) 1
      = { m_nCurrentLotteryCount := 2, m_listLotteryPool := [(Ticket.A, 2)] } :=
  ⟨(Modify_withdraw_insufficient _ Ticket.A (-5) boxA2_WellFormed (by decide) (by decide)).1,
    by decide⟩

/-- C10: for every box and every two sequences `items`, `counts` of equal length, the bulk
call `Modify(items, counts)` yields exactly the box obtained by the one-element calls
`Modify([items[i]],[counts[i]])` for `i = 0, 1, ..., n-1` in order; an element whose count
is 0, or is positive with `capacity - total < count` on the box reached so far, has no
effect at all, and the later elements are still processed. -/
theorem Modify_bulk_eq_sequence (box : CHMLotteryBox α) (items : List α) (counts : List Int)
    (hlen : items.length = counts.length) :
    Modify box (some items) (some counts) (items.length : Int)
        = (items.zip counts).foldl (fun b e => Modify b (some [e.1]) (some [e.2]) 1) box ∧
      ∀ (b : CHMLotteryBox α) (x : α) (c : Int),
        (c = 0 ∨ (0 < c ∧ m_scnLotteryBoxCapacity - b.m_nCurrentLotteryCount < c)) →
          Modify b (some [x]) (some [c]) 1 = b := by
  constructor
  · have hfun : (fun (b : CHMLotteryBox α) (e : α × Int) => Modify b (some [e.1]) (some [e.2]) 1)
        = (fun b e => Modify.body b e.1 e.2) := by
      funext b e
      exact Modify_single b e.1 e.2
    rw [hfun]
    unfold Modify
    dsimp only
    by_cases h0 : (0 : Int) ≥ (items.length : Int)
    · rw [if_pos h0]
      have hnil : items = [] := List.length_eq_zero.1 (by omega)
      subst hnil
      rfl
    · rw [if_neg h0, Modify_loop_eq_foldl_zip]
      have htake : (items.zip counts).take (items.length : Int).toNat = items.zip counts := by
        apply List.take_of_length_le
        rw [List.length_zip, ← hlen]
        simp
      rw [htake]
  · intro b x c hc
    rw [Modify_single]
    unfold Modify.body
    rw [if_pos (by omega)]

/-- C10, witness: on the freshly constructed box, `Modify([A,B,C],[INT_MAX-1, 2, 1])` ends
with `A = INT_MAX-1`, `B` absent, `C = 1` and the total `INT_MAX`: the deposit of `B` is
skipped and the deposit of `C` is still made. -/
theorem Modify_bulk_eq_sequence_witness :
    Modify (CHMLotteryBox.new : CHMLotteryBox Ticket) (some [Ticket.A, Ticket.B, Ticket.C])
        (some [INT_MAX - 1, 2, 1]) 3
      = (([Ticket.A, Ticket.B, Ticket.C].zip [INT_MAX - 1, 2, 1]).foldl
          (fun b e => Modify b (some [e.1]) (some [e.2]) 1) CHMLotteryBox.new) ∧
    Modify (CHMLotteryBox.new : CHMLotteryBox Ticket) (some [Ticket.A, Ticket.B, Ticket.C])
        (some [INT_MAX - 1, 2, 1]) 3
      = { m_nCurrentLotteryCount := INT_MAX,
          m_listLotteryPool := [(Ticket.A, INT_MAX - 1), (Ticket.C, 1)] } ∧
    GetCount (Modify (CHMLotteryBox.new : CHMLotteryBox Ticket)
        (some [Ticket.A, Ticket.B, Ticket.C]) (some [INT_MAX - 1, 2, 1]) 3) (some Ticket.B) = 0 :=
  ⟨(Modify_bulk_eq_sequence (CHMLotteryBox.new : CHMLotteryBox Ticket)
      [Ticket.A, Ticket.B, Ticket.C] [INT_MAX - 1, 2, 1] rfl).1,
    by decide, by decide⟩

/-- On the runs in which `push_back` does not throw: on a well-formed box, for a lottery
`A` and a positive count `n` with `n ≤ capacity - total` or `GetCount(A) < n`, the call
`Modify([A],[n])` followed by `Modify([A],[-n])` returns the box to its prior state. -/
theorem Modify_round_trip_plain (box : CHMLotteryBox α) (A : α) (n : Int)
    (hwf : box.WellFormed) (hn : 0 < n)
    (hok : n ≤ m_scnLotteryBoxCapacity - GetCount box none ∨ GetCount box (some A) < n) :
    Modify (Modify box (some [A]) (some [n]) 1) (some [A]) (some [-n]) 1 = box := by
  rw [Modify_single, Modify_single]
  by_cases hcap : n ≤ m_scnLotteryBoxCapacity - box.m_nCurrentLotteryCount
  · have hnn : ModifyLotteryPool A n box.m_listLotteryPool ≠ none := by
      rw [Ne, ModifyLotteryPool_eq_none_iff]
      have := GetCount_loop_nonneg A box.m_listLotteryPool hwf.1.2
      omega
    obtain ⟨l, hl⟩ := Option.ne_none_iff_exists'.1 hnn
    have hback := ModifyLotteryPool_round_trip A n hn _ l hwf.1.2 hl
    have h1 : Modify.body box A n
        = { m_nCurrentLotteryCount := box.m_nCurrentLotteryCount + n,
            m_listLotteryPool := l } := by
      unfold Modify.body
      rw [if_neg (by omega)]
      simp only [hl]
    rw [h1]
    unfold Modify.body
    rw [if_neg (by dsimp only; omega)]
    simp only [hback]
    have htot : box.m_nCurrentLotteryCount + n + -n = box.m_nCurrentLotteryCount := by omega
    rw [htot]
  · have hlt : GetCount.loop A box.m_listLotteryPool < n := by
      rcases hok with h | h
      · exact absurd h hcap
      · exact h
    have h1 : Modify.body box A n = box := by
      unfold Modify.body
      rw [if_pos (Or.inr (by omega))]
    rw [h1]
    have hnone := (ModifyLotteryPool_eq_none_iff A (-n) box.m_listLotteryPool).2 (by omega)
    unfold Modify.body
    split_ifs
    · rfl
    · simp only [hnone]

/-- C11 as stated fails: on the box reached by `Modify([A],[INT_MAX])`, which is
well-formed, the deposit `Modify([A],[5])` is skipped by the capacity guard and the
withdrawal `Modify([A],[-5])` is made, so the box is not back in its prior state; no
`push_back` is called by the two calls, so this does not depend on its outcome. -/
theorem Modify_round_trip_counterexample :
    boxAFull = runCalls [Call.modify (some [Ticket.A]) (some [INT_MAX]) 1] ∧
      boxAFull.WellFormed ∧ (0 : Int) < 5 ∧
      Modify (Modify boxAFull (some [Ticket.A]) (some [5]) 1) (some [Ticket.A]) (some [-5]) 1
        = { m_nCurrentLotteryCount := INT_MAX - 5,
            m_listLotteryPool := [(Ticket.A, INT_MAX - 5)] } ∧
      Modify (Modify boxAFull (some [Ticket.A]) (some [5]) 1) (some [Ticket.A]) (some [-5]) 1
        ≠ boxAFull ∧
      boxAFull
        = runCallsAlloc [CallAlloc.modify (fun _ => true) (some [Ticket.A]) (some [INT_MAX]) 1] ∧
      ∀ pushOk1 pushOk2 : Nat → Bool,
        ModifyAlloc pushOk2 (ModifyAlloc pushOk1 boxAFull (some [Ticket.A]) (some [5]) 1)
            (some [Ticket.A]) (some [-5]) 1
          ≠ boxAFull := by
  refine ⟨rfl, ⟨runCalls_Inv _, runCalls_Distinct _⟩, by decide, by decide, by decide,
    by decide, ?_⟩
  intro pushOk1 pushOk2
  rw [ModifyAlloc_single, ModifyAlloc_single]
  generalize pushOk1 0 = f1
  generalize pushOk2 0 = f2
  cases f1 <;> cases f2 <;> decide

/-- C11, amended: on a well-formed box, for a lottery `A` and a positive count `n` such
that either `n ≤ capacity - total` (the deposit is not skipped by the capacity guard) and
`A` is stored or the `push_back` of its new entry does not throw, or
`capacity - total < n` and `GetCount(A) < n`, the call `Modify([A],[n])` followed by
`Modify([A],[-n])` returns the box to its prior state: the same entries with the same
counts in the same order and the same total. -/
theorem Modify_round_trip (pushOk1 pushOk2 : Nat → Bool) (box : CHMLotteryBox α) (A : α)
    (n : Int) (hwf : box.WellFormed) (hn : 0 < n)
    (hok : (n ≤ m_scnLotteryBoxCapacity - GetCount box none ∧
          (GetCount box (some A) ≠ 0 ∨ pushOk1 0 = true)) ∨
        (m_scnLotteryBoxCapacity - GetCount box none < n ∧ GetCount box (some A) < n)) :
    ModifyAlloc pushOk2 (ModifyAlloc pushOk1 box (some [A]) (some [n]) 1)
        (some [A]) (some [-n]) 1 = box := by
  rw [ModifyAlloc_single, ModifyAlloc_single]
  have h1 : Modify.bodyAlloc (pushOk1 0) box A n = Modify.body box A n := by
    apply Modify_bodyAlloc_eq_body
    rcases hok with ⟨_, h | h⟩ | ⟨h, _⟩
    · right; left
      by_contra habs
      exact h (GetCount_loop_of_not_mem A _ habs)
    · left; exact h
    · right; right; right; exact h
  rw [h1, Modify_bodyAlloc_eq_body (pushOk2 0) _ A (-n) (Or.inr (Or.inr (Or.inl (by omega))))]
  have hplain := Modify_round_trip_plain box A n hwf hn (by
    rcases hok with ⟨h, _⟩ | ⟨_, h⟩
    · exact Or.inl h
    · exact Or.inr h)
  rw [Modify_single, Modify_single] at hplain
  exact hplain

/-- C11, witness: on `[(A,3),(B,2)]`, with a `push_back` that does not throw, `Modify([C],[5])`
followed by `Modify([C],[-5])` gives the box back; whether or not `push_back` would throw,
`Modify([A],[5])` followed by `Modify([A],[-5])` gives the box back. -/
theorem Modify_round_trip_witness :
    boxA3B2.WellFormed ∧
      ModifyAlloc (fun _ => true) (ModifyAlloc (fun _ => true) boxA3B2
          (some [Ticket.C]) (some [5]) 1) (some [Ticket.C]) (some [-5]) 1 = boxA3B2 ∧
      ModifyAlloc (fun _ => false) (ModifyAlloc (fun _ => false) boxA3B2
          (some [Ticket.A]) (some [5]) 1) (some [Ticket.A]) (some [-5]) 1 = boxA3B2 :=
  ⟨boxA3B2_WellFormed,
    Modify_round_trip (fun _ => true) (fun _ => true) boxA3B2 Ticket.C 5 boxA3B2_WellFormed
      (by decide) (Or.inl ⟨by decide, Or.inr rfl⟩),
    Modify_round_trip (fun _ => false) (fun _ => false) boxA3B2 Ticket.A 5 boxA3B2_WellFormed
      (by decide) (Or.inl ⟨by decide, Or.inl (by decide)⟩)⟩

/-- C13: for every box, `Clear()` yields the box with no entries and total 0, so that
`GetCount() == 0` and `GetCount(x) == 0` for every lottery `x`; `Clear()` followed by
`Clear()` yields the same box as a single `Clear()`. -/
theorem Clear_resets_idempotent (box : CHMLotteryBox α) :
    Clear box = { m_nCurrentLotteryCount := 0, m_listLotteryPool := [] } ∧
      GetCount (Clear box) none = 0 ∧
      (∀ x : α, GetCount (Clear box) (some x) = 0) ∧
      Clear (Clear box) = Clear box :=
  ⟨rfl, rfl, fun _ => rfl, rfl⟩

/-- C14: for every box and every container whose iteration yields the pairs
`(k_1,d_1), ..., (k_n,d_n)`, the container variant of `Modify` produces exactly the box
that the array variant produces on `[k_1..k_n]`, `[d_1..d_n]` and `n`; on an empty
container the box is unchanged, as it is by the array variant for a length `≤ 0`. -/
theorem Modify_variants_agree (box : CHMLotteryBox α) (t2Lottery : List (α × Int)) :
    ModifyContainer box t2Lottery
        = Modify box (some (t2Lottery.map Prod.fst)) (some (t2Lottery.map Prod.snd))
            (t2Lottery.length : Int) ∧
      ModifyContainer box [] = box ∧
      ∀ (pLottery : Option (List α)) (pCount : Option (List Int)) (nLen : Int),
        nLen ≤ 0 → Modify box pLottery pCount nLen = box := by
  refine ⟨?_, rfl, ?_⟩
  · unfold Modify ModifyContainer
    dsimp only
    by_cases h0 : (0 : Int) ≥ (t2Lottery.length : Int)
    · rw [if_pos h0]
      have hnil : t2Lottery = [] := List.length_eq_zero.1 (by omega)
      subst hnil
      rfl
    · rw [if_neg h0, Modify_loop_eq_foldl_zip, zip_map_fst_map_snd]
      have htake : t2Lottery.take (t2Lottery.length : Int).toNat = t2Lottery := by
        apply List.take_of_length_le
        simp
      rw [htake]
  · intro pLottery pCount nLen hlen
    unfold Modify
    split
    · rw [if_pos (by omega)]
    · rfl

/-- C14, witness: the container `{A ↦ 3, B ↦ 2}` and the arrays `[A,B]`, `[3,2]` give the
same box `[(A,3),(B,2)]`; a call with length 0 changes nothing. -/
theorem Modify_variants_agree_witness :
    ModifyContainer (CHMLotteryBox.new : CHMLotteryBox Ticket) [(Ticket.A, 3), (Ticket.B, 2)]
        = Modify CHMLotteryBox.new (some [Ticket.A, Ticket.B]) (some [3, 2]) 2 ∧
      ModifyContainer (CHMLotteryBox.new : CHMLotteryBox Ticket) [(Ticket.A, 3), (Ticket.B, 2)]
        = boxA3B2 ∧
      Modify boxA3B2 (some [Ticket.A]) (some [1]) 0 = boxA3B2 :=
  ⟨(Modify_variants_agree (CHMLotteryBox.new : CHMLotteryBox Ticket)
      [(Ticket.A, 3), (Ticket.B, 2)]).1,
    by decide,
    (Modify_variants_agree boxA3B2 []).2.2 (some [Ticket.A]) (some [1]) 0 (by decide)⟩

/-- C15, the code at the failing input: when `push_back` throws while `Modify([A],[1])`
runs on the freshly constructed box, `ModifyLotteryPool` still returns `true` and the
total becomes 1 with no entry stored, so the total is no longer the sum of the counts. -/
theorem Modify_push_back_failure_breaks_total :
    ModifyLotteryPoolAlloc false Ticket.A 1 [] = some [] ∧
      Modify.bodyAlloc false (CHMLotteryBox.new : CHMLotteryBox Ticket) Ticket.A 1
        = { m_nCurrentLotteryCount := 1, m_listLotteryPool := [] } ∧
      Modify.bodyAlloc false (CHMLotteryBox.new : CHMLotteryBox Ticket) Ticket.A 1
        ≠ CHMLotteryBox.new ∧
      (Modify.bodyAlloc false (CHMLotteryBox.new : CHMLotteryBox Ticket)
          Ticket.A 1).m_nCurrentLotteryCount
        ≠ countSum (Modify.bodyAlloc false (CHMLotteryBox.new : CHMLotteryBox Ticket)
            Ticket.A 1).m_listLotteryPool ∧
      Modify.bodyAlloc true (CHMLotteryBox.new : CHMLotteryBox Ticket) Ticket.A 1
        = Modify (CHMLotteryBox.new : CHMLotteryBox Ticket) (some [Ticket.A]) (some [1]) 1 := by
  refine ⟨by decide, by decide, by decide, by decide, by decide⟩

/-- C16: on a well-formed box with total `n`, for every sequence of `n` non-negative
hints, the `n` consecutive calls of `Draw` all succeed, each lottery `X` is returned exactly
`GetCount(X)` times (the count before the first call), and afterwards the box has no
entries and total 0, so that one more `Draw` fails. -/
theorem Draw_exhausts (hints : List Int) (rnd : Int) :
    ∀ box : CHMLotteryBox α, box.WellFormed →
      (hints.length : Int) = box.m_nCurrentLotteryCount → (∀ h ∈ hints, 0 ≤ h) →
      (∀ r ∈ (drawAll rnd box hints).1, r ≠ none) ∧
        (∀ X : α, (((drawAll rnd box hints).1.count (some X) : Nat) : Int)
          = GetCount box (some X)) ∧
        (drawAll rnd box hints).2 = { m_nCurrentLotteryCount := 0, m_listLotteryPool := [] } ∧
        ∀ h' rnd' : Int, (Draw (drawAll rnd box hints).2 h' rnd').1 = none := by
  induction hints with
  | nil =>
    intro box hwf hlen _
    have hzero : box.m_nCurrentLotteryCount = 0 := by
      rw [← hlen]; rfl
    have hbox := Inv_total_zero box hwf.1 hzero
    refine ⟨?_, ?_, ?_, ?_⟩
    · intro r hr
      simp [drawAll] at hr
    · intro X
      rw [hbox]
      rfl
    · exact hbox
    · intro h' rnd'
      show (Draw box h' rnd').1 = none
      unfold Draw
      rw [if_pos (by omega)]
  | cons h hs ih =>
    intro box hwf hlen hnn
    have hh : 0 ≤ h := hnn h (List.mem_cons_self _ _)
    have hlen' : (hs.length : Int) + 1 = box.m_nCurrentLotteryCount := by
      rw [← hlen]; simp
    obtain ⟨t, l, _, hm, hd⟩ := Draw_succeeds box h rnd hwf.1 (by omega) (Or.inl hh)
    have hwf' : (Draw box h rnd).2.WellFormed :=
      ⟨Draw_Inv box h rnd hwf.1, Draw_Distinct box h rnd hwf.2⟩
    have htot' : (hs.length : Int) = (Draw box h rnd).2.m_nCurrentLotteryCount := by
      rw [hd]
      show (hs.length : Int) = box.m_nCurrentLotteryCount - 1
      omega
    obtain ⟨ih1, ih2, ih3, ih4⟩ :=
      ih (Draw box h rnd).2 hwf' htot' (fun x hx => hnn x (List.mem_cons_of_mem _ hx))
    refine ⟨?_, ?_, ih3, ih4⟩
    · intro r hr
      rcases List.mem_cons.1 hr with rfl | hr
      · rw [hd]; simp
      · exact ih1 r hr
    · intro X
      show (((((Draw box h rnd).1 :: (drawAll rnd (Draw box h rnd).2 hs).1).count (some X) : Nat))
        : Int) = GetCount.loop X box.m_listLotteryPool
      rw [List.count_cons]
      push_cast
      rw [ih2 X, hd]
      show GetCount.loop X l + _ = _
      by_cases hX : X = t
      · subst hX
        rw [ModifyLotteryPool_GetCount_self X (-1) _ l hwf.2 hm]
        simp
      · rw [ModifyLotteryPool_GetCount_other t (-1) X hX _ l hm]
        have hne : ¬ (t = X) := fun heq => hX heq.symm
        simp [hne]

/-- C16, witness: five draws with the hints 0, 0, 0, 0, 0 empty the box `[(A,3),(B,2)]`,
returning `A` three times and `B` twice; a sixth draw fails. -/
theorem Draw_exhausts_witness :
    boxA3B2.WellFormed ∧
      (drawAll 0 boxA3B2 [0, 0, 0, 0, 0]).1
        = [some Ticket.A, some Ticket.A, some Ticket.A, some Ticket.B, some Ticket.B] ∧
      (drawAll 0 boxA3B2 [0, 0, 0, 0, 0]).2
        = { m_nCurrentLotteryCount := 0, m_listLotteryPool := [] } ∧
      (Draw (drawAll 0 boxA3B2 [0, 0, 0, 0, 0]).2 0 0).1 = none :=
  have h := Draw_exhausts [0, 0, 0, 0, 0] 0 boxA3B2 boxA3B2_WellFormed (by decide)
    (by decide)
  ⟨boxA3B2_WellFormed, by decide, h.2.2.1, h.2.2.2 0 0⟩

/-- C18: for every box (well-formed or not), lottery `A` and count `n`, the call
`Modify([A],[n])` leaves `GetCount(B)` unchanged for every `B ≠ A` and leaves the entries
of all lotteries other than `A`, and their relative order, unchanged. -/
theorem Modify_frame (box : CHMLotteryBox α) (A : α) (n : Int) :
    (∀ B : α, B ≠ A →
        GetCount (Modify box (some [A]) (some [n]) 1) (some B) = GetCount box (some B)) ∧
      (Modify box (some [A]) (some [n]) 1).m_listLotteryPool.filter (fun e => e.1 ≠ A)
        = box.m_listLotteryPool.filter (fun e => e.1 ≠ A) := by
  rw [Modify_single]
  exact Modify_body_frame box A n

/-- C18, witness: on `[(A,3),(B,2)]`, `Modify([A],[-3])` leaves the count of `B` at 2 and
the entry `(B,2)` as the only other entry. -/
theorem Modify_frame_witness :
    GetCount (Modify boxA3B2 (some [Ticket.A]) (some [-3]) 1) (some Ticket.B)
        = GetCount boxA3B2 (some Ticket.B) ∧
      Modify boxA3B2 (some [Ticket.A]) (some [-3]) 1
        = { m_nCurrentLotteryCount := 2, m_listLotteryPool := [(Ticket.B, 2)] } :=
  ⟨(Modify_frame boxA3B2 Ticket.A (-3)).1 Ticket.B (by decide), by decide⟩

/-- C19: for every box (well-formed or not) and every hint, if `Draw` succeeds and returns
`X`, then `GetCount(B)` is unchanged for every `B ≠ X`, the entries of the other
lotteries and their relative order are unchanged, and only the entry of `X`, at some
position `i`, is changed: erased if its count was 1, else decremented in place. -/
theorem Draw_frame (box : CHMLotteryBox α) (h rnd : Int) (X : α)
    (hdraw : (Draw box h rnd).1 = some X) :
    (∀ B : α, B ≠ X → GetCount (Draw box h rnd).2 (some B) = GetCount box (some B)) ∧
      (Draw box h rnd).2.m_listLotteryPool.filter (fun e => e.1 ≠ X)
        = box.m_listLotteryPool.filter (fun e => e.1 ≠ X) ∧
      ∃ i, box.m_listLotteryPool[i]? = some (X, GetCount box (some X)) ∧
        (Draw box h rnd).2.m_listLotteryPool
          = (if GetCount box (some X) = 1 then box.m_listLotteryPool.eraseIdx i
             else box.m_listLotteryPool.set i (X, GetCount box (some X) - 1)) := by
  rcases Draw_cases box h rnd with hd | ⟨_, _, t, l, hfind, hm, hd⟩
  · rw [hd] at hdraw; cases hdraw
  · rw [hd] at hdraw
    have htX : t = X := Option.some.inj hdraw
    subst htX
    rw [hd]
    refine ⟨fun B hB => ModifyLotteryPool_GetCount_other t (-1) B hB _ l hm,
      ModifyLotteryPool_filter_ne t (-1) _ l hm, ?_⟩
    have hmem := FindLotteryByRandKey_loop_mem _ _ _ _ hfind
    have hge : 0 ≤ GetCount.loop t box.m_listLotteryPool + -1 := by
      by_contra hneg
      have := (ModifyLotteryPool_eq_none_iff t (-1) box.m_listLotteryPool).2 (by omega)
      rw [this] at hm
      cases hm
    obtain ⟨i, hi, hmod⟩ := ModifyLotteryPool_present t (-1) _ hmem hge
    rw [hm] at hmod
    refine ⟨i, hi, ?_⟩
    show l = if GetCount.loop t box.m_listLotteryPool = 1 then _ else _
    rw [Option.some.inj hmod]
    by_cases hone : GetCount.loop t box.m_listLotteryPool = 1
    · rw [if_pos hone, if_pos (by omega)]
    · rw [if_neg hone, if_neg (by omega)]
      rfl

/-- C19, witness: drawing with hint 3 from `[(A,3),(B,2)]` returns `B`, leaves the count
of `A` at 3 and decrements the entry of `B` in place. -/
theorem Draw_frame_witness :
    (Draw boxA3B2 3 0).1 = some Ticket.B ∧
      GetCount (Draw boxA3B2 3 0).2 (some Ticket.A) = GetCount boxA3B2 (some Ticket.A) ∧
      (Draw boxA3B2 3 0).2
        = { m_nCurrentLotteryCount := 4,
            m_listLotteryPool := [(Ticket.A, 3), (Ticket.B, 1)] } :=
  ⟨by decide,
    (Draw_frame boxA3B2 3 0 Ticket.B (by decide)).1 Ticket.A (by decide),
    by decide⟩

end HMLotteryBox
